import Mathlib

/-!
Verification of the `logos-format` token-rewriting tool.

The source program rewrites Logos directive tokens (`%hook`, `%log`, …) into
clang-format-legal marker spellings (`@logosformathook`, …), runs the
formatter, and rewrites the markers back.  Lines are modelled as `List Char`;
the per-line transforms `logos_to_norm_line` / `norm_to_logos_line` are direct
translations of the loop bodies of `logos_to_norm` / `norm_to_logos` in
`logos_format.py`, and the orchestration of `real_main` / `main` is modelled
as a state-passing function over an abstract file system and an abstract
formatter outcome.
-/

namespace LogosFormat

/-- ASCII word character: models Python's regex word class `\w` (the tool only
processes ASCII program text, where Python's `\w` is alphanumerics plus
underscore). -/
def wordChar (c : Char) : Bool := c.isAlphanum || c == '_'

/-- The marker text `@logosformat` without its leading `'@'`. -/
def markerTail : List Char := "logosformat".toList

/-- The marker text `@logosformat` that the forward transform substitutes for
the `%` of a directive. -/
def marker : List Char := '@' :: markerTail

/-- The terminated-directive tokens (`specialFilterList` in the source):
their rewrite appends a `';'` to the line. -/
def specialFilterList : List (List Char) :=
  ["%hook".toList, "%end".toList, "%new".toList, "%group".toList, "%subclass".toList]

/-- The non-terminated directive tokens (`filterList` in the source). -/
def filterList : List (List Char) :=
  ["%property".toList, "%config".toList, "%hookf".toList, "%ctor".toList, "%dtor".toList,
   "%init".toList, "%c".toList, "%orig".toList, "%log".toList]

/-- The directive names (tokens with the leading `%` removed), for both
catalogs. -/
def allNames : List (List Char) := (filterList ++ specialFilterList).map (List.drop 1)

/-- Does the regex word boundary `\b` hold just after an occurrence of `name`
at the front of `rest`?  (The preceding character is always a word character,
so `\b` holds iff the next character is absent or not a word character.) -/
def bAfter (name rest : List Char) : Bool :=
  match rest.drop name.length with
  | [] => true
  | d :: _ => !wordChar d

/-- Does the regex `%(name)\b` match at the very start of `'%' :: rest`?
(`matchAt name rest` is the part of the test after the `'%'`.) -/
def matchAt (name rest : List Char) : Bool := name.isPrefixOf rest && bAfter name rest

/-- Fuelled worker for `subTok` (fuel makes the recursion structural, so the
kernel can evaluate it). -/
def subTokF (name : List Char) : Nat → List Char → List Char
  | _, [] => []
  | 0, s => s
  | fuel+1, c :: rest =>
    if c == '%' && matchAt name rest then
      marker ++ name ++ subTokF name fuel (rest.drop name.length)
    else
      c :: subTokF name fuel rest

/-- `re.sub(rf"%({name})\b", "@logosformat" + name, s)`: replace every
word-boundary occurrence of `%name` by `@logosformat` followed by `name`,
scanning left to right over non-overlapping matches. -/
def subTok (name s : List Char) : List Char := subTokF name s.length s

/-- Fuelled worker for `replaceAll`. -/
def replaceAllF (p : Char) (ps repl : List Char) : Nat → List Char → List Char
  | _, [] => []
  | 0, s => s
  | fuel+1, c :: rest =>
    if (p :: ps).isPrefixOf (c :: rest) then
      repl ++ replaceAllF p ps repl fuel (rest.drop ps.length)
    else
      c :: replaceAllF p ps repl fuel rest

/-- Python `str.replace`: replace every occurrence of the (non-empty) pattern
`p :: ps` by `repl`, scanning left to right over non-overlapping matches. -/
def replaceAll (p : Char) (ps repl s : List Char) : List Char :=
  replaceAllF p ps repl s.length s

/-- Python's substring test `pat in s`. -/
def containsTok (pat : List Char) : List Char → Bool
  | [] => pat.isEmpty
  | c :: rest => pat.isPrefixOf (c :: rest) || containsTok pat rest

/-- Is there a word-boundary occurrence of `%name` somewhere in the line
(i.e. does `re.search(rf"%({name})\b", s)` succeed)? -/
def hasBOcc (name : List Char) : List Char → Bool
  | [] => false
  | c :: rest => (c == '%' && matchAt name rest) || hasBOcc name rest

/-- The first loop of `logos_to_norm`'s body: for each non-terminated token,
if the token text occurs in the line, substitute its marker spelling. -/
def applyFilter (line : List Char) : List Char :=
  filterList.foldl (fun l tok => if containsTok tok l then subTok (tok.drop 1) l else l) line

/-- The second loop of `logos_to_norm`'s body: for each terminated token,
if the token text occurs in the line, substitute its marker spelling and
append a `';'` to the whole line. -/
def applySpecial (l : List Char) : List Char :=
  specialFilterList.foldl
    (fun l tok => if containsTok tok l then subTok (tok.drop 1) l ++ [';'] else l) l

/-- The forward transform applied to one line (body of `logos_to_norm`). -/
def logos_to_norm_line (line : List Char) : List Char := applySpecial (applyFilter line)

/-- The reverse transform applied to one line (body of `norm_to_logos`):
if the marker occurs, put the `%` back everywhere, and if the resulting line
contains any terminated token text, delete every `';'`. -/
def norm_to_logos_line (line : List Char) : List Char :=
  if containsTok marker line then
    let l1 := replaceAll '@' markerTail [ '%' ] line
    if specialFilterList.any fun tok => containsTok tok l1 then
      replaceAll ';' [] [] l1
    else l1
  else line

/-- `logos_to_norm` on a whole file, seen as its list of lines. -/
def logos_to_norm (ls : List (List Char)) : List (List Char) := ls.map logos_to_norm_line

/-- `norm_to_logos` on a whole file, seen as its list of lines. -/
def norm_to_logos (ls : List (List Char)) : List (List Char) := ls.map norm_to_logos_line

/-- The special-phase result without the appended terminators, with each
containment test evaluated against the post-filter line `l1` (we prove below
that this agrees with the actual evolving-state tests of `applySpecial`). -/
def applySpecialCore (l1 : List Char) : List Char :=
  specialFilterList.foldl (fun l tok => if containsTok tok l1 then subTok (tok.drop 1) l else l) l1

/-- How many terminated tokens occur (as substrings) in the post-filter line:
one `';'` is appended per such token. -/
def specialSemiCount (line : List Char) : Nat :=
  (specialFilterList.filter fun tok => containsTok tok (applyFilter line)).length

/-- One iteration of the first loop of `logos_to_norm` (named form of the
fold function of `applyFilter`). -/
def filterStep (l : List Char) (tok : List Char) : List Char :=
  if containsTok tok l then subTok (tok.drop 1) l else l

/-- One iteration of the second loop of `logos_to_norm` (named form of the
fold function of `applySpecial`). -/
def specialStep (l : List Char) (tok : List Char) : List Char :=
  if containsTok tok l then subTok (tok.drop 1) l ++ [';'] else l

/-- The number of word-boundary occurrences of `%name` in a line (the number
of matches of `re.findall(rf"%({name})\b", s)`). -/
def countBOcc (name : List Char) : List Char → Nat
  | [] => 0
  | c :: rest => (if c == '%' && matchAt name rest then 1 else 0) + countBOcc name rest

/-- A directive name: non-empty, all lowercase ASCII letters. -/
def goodName (n : List Char) : Bool := !n.isEmpty && n.all Char.isLower

/-- Prefix compatibility of directive names `q` and `n`: `n` is not a prefix
of `q`, and if `q` is a proper prefix of `n` then the next character of `n` is
a word character (so a word-boundary occurrence of `%q` can never overlap a
word-boundary match of `%n`; e.g. `q` = `hook`, `n` = `hookf`). -/
def bndOK (q n : List Char) : Bool :=
  !(n.isPrefixOf q) &&
    (!(q.isPrefixOf n) ||
      (match n.drop q.length with
       | [] => false
       | d :: _ => wordChar d))

/-- `Rel N s t` : `t` is obtained from `s` by replacing some disjoint
occurrences of directives `%name` (with `name ∈ N`) by their marker spelling
`@logosformat` ++ `name`.  Every intermediate line of the forward transform is
related to the original line by `Rel`. -/
inductive Rel (N : List (List Char)) : List Char → List Char → Prop where
  | nil : Rel N [] []
  | keep (c : Char) {s t : List Char} : Rel N s t → Rel N (c :: s) (c :: t)
  | sub {name s t : List Char} : name ∈ N → Rel N s t →
      Rel N ('%' :: (name ++ s)) ((marker ++ name) ++ t)

/-! ### Orchestration model (`get_logos_path`, `real_main`, `main`)

The file system is abstracted as a map from path strings to file metadata and
content; the clang-format invocation is abstracted as an outcome: success
(with captured stdout and a per-file text transformation), a
`CalledProcessError` with a return code, or an unexpected exception. -/

/-- The recognized Logos extensions (`logos_extensions` in the source). -/
def logos_extensions : List String := [".x", ".xi", ".xm", ".xmi"]

/-- The fixed extension table of the source. -/
def logos_extensions_to_normal_extensions : List (String × String) :=
  [(".x", ".m"), (".xi", ".m"), (".xm", ".mm"), (".xmi", ".mm")]

/-- Table lookup for the extension mapping. -/
def normalExtension (e : String) : Option String :=
  (logos_extensions_to_normal_extensions.find? fun p => p.1 == e).map Prod.snd

/-- Metadata and content of one path in the abstract file system. -/
structure FInfo where
  isFile : Bool
  ext : String
  readable : Bool
  writable : Bool
  content : List (List Char)

/-- Exceptions escaping `real_main`: `PermissionError` from `get_logos_path`,
or an unexpected internal exception. -/
inductive Err where
  | perm (msg : String)
  | unexpected
deriving DecidableEq

/-- Abstract outcome of the single clang-format invocation. -/
inductive FmtOutcome where
  | success (stdout : List (List Char)) (fmtFile : List (List Char) → List (List Char))
  | fail (rc : Int)
  | exn

/-- Mutable world state of one run: the original files, and whether the
temporary working directory has been created. -/
structure RunState where
  files : String → FInfo
  tmpdirCreated : Bool

/-- `get_logos_path`: recognize an argument as a Logos source file; raise
`PermissionError` if a recognized file is unreadable or unwritable. -/
def get_logos_path (files : String → FInfo) (arg : String) : Except Err (Option String) :=
  if (files arg).isFile && logos_extensions.contains (files arg).ext then
    if !(files arg).readable then .error (.perm ("Cannot read Logos file " ++ arg))
    else if !(files arg).writable then .error (.perm ("Cannot write Logos file " ++ arg))
    else .ok (some arg)
  else .ok none

/-- The argument-classification loop of `real_main`: the recognized Logos
files, in argument order; the first permission failure aborts the run. -/
def classify (files : String → FInfo) : List String → Except Err (List String)
  | [] => .ok []
  | a :: as =>
    match get_logos_path files a with
    | .error e => .error e
    | .ok (some p) => (classify files as).map (p :: ·)
    | .ok none => classify files as

/-- Overwrite one original file's content. -/
def updateFile (files : String → FInfo) (p : String) (newLines : List (List Char)) :
    String → FInfo :=
  fun q => if q = p then { files p with content := newLines } else files q

/-- The in-place commit loop: each recognized original is overwritten with the
reverse transform of the formatter's output for its intermediate (which held
the forward transform of the original). -/
def commitAll (fmtFile : List (List Char) → List (List Char)) (recognized : List String)
    (files : String → FInfo) : String → FInfo :=
  recognized.foldl
    (fun fs p => updateFile fs p (norm_to_logos (fmtFile (logos_to_norm ((fs p).content))))) files

/-- `real_main`: version short-circuit; create the temporary directory; classify
the arguments (possibly raising `PermissionError`); run the formatter; on
failure return its code (or propagate an unexpected exception); on success
commit in place or stream to stdout. -/
def real_main (version in_place : Bool) (args : List String) (st : RunState)
    (fmt : FmtOutcome) : Except Err Int × RunState :=
  if version then (.ok 0, st)
  else
    let st1 : RunState := { st with tmpdirCreated := true }
    match classify st.files args with
    | .error e => (.error e, st1)
    | .ok recognized =>
      match fmt with
      | .fail rc => (.ok rc, st1)
      | .exn => (.error .unexpected, st1)
      | .success _ fmtFile =>
        if in_place then
          (.ok 0, { st1 with files := commitAll fmtFile recognized st1.files })
        else
          (.ok 0, st1)

/-- `main`: run `real_main`, mapping any uncaught exception to exit code 1. -/
def main (version in_place : Bool) (args : List String) (st : RunState)
    (fmt : FmtOutcome) : Int × RunState :=
  match real_main version in_place args st fmt with
  | (.ok c, st2) => (c, st2)
  | (.error _, st2) => (1, st2)

/-- A recognized file that fails the readability or writability check
(exactly the condition under which `get_logos_path` raises). -/
def permBad (i : FInfo) : Prop :=
  i.isFile = true ∧ logos_extensions.contains i.ext = true ∧
    (i.readable = false ∨ i.writable = false)

/-- A healthy recognized Logos file, for concrete instantiations. -/
def sampleInfo : FInfo :=
  { isFile := true, ext := ".x", readable := true, writable := true,
    content := ["%hook X\n".toList] }

/-- A world in which every path is a healthy `.x` file. -/
def sampleState : RunState := { files := fun _ => sampleInfo, tmpdirCreated := false }

/-- An unrecognized (non-Logos) path, for concrete instantiations. -/
def plainInfo : FInfo :=
  { isFile := false, ext := ".cpp", readable := true, writable := true, content := [] }

/-- A recognized Logos file that is not readable. -/
def badInfo : FInfo :=
  { isFile := true, ext := ".x", readable := false, writable := true, content := [] }

/-- A world in which every path is an unreadable `.x` file. -/
def badState : RunState := { files := fun _ => badInfo, tmpdirCreated := false }

/-! ## Helper lemmas -/

theorem foldl_subTok_id (toks : List (List Char)) (line : List Char)
    (h : ∀ tok ∈ toks, containsTok tok line = false) :
    toks.foldl (fun l tok => if containsTok tok l then subTok (tok.drop 1) l else l) line
      = line := by
  induction toks with
  | nil => rfl
  | cons tok rest ih =>
    have h0 : containsTok tok line = false := h tok (by simp)
    simp only [List.foldl_cons, h0, Bool.false_eq_true, if_false]
    exact ih fun t ht => h t (by simp [ht])

theorem foldl_special_id (toks : List (List Char)) (line : List Char)
    (h : ∀ tok ∈ toks, containsTok tok line = false) :
    toks.foldl (fun l tok => if containsTok tok l then subTok (tok.drop 1) l ++ [';'] else l)
      line = line := by
  induction toks with
  | nil => rfl
  | cons tok rest ih =>
    have h0 : containsTok tok line = false := h tok (by simp)
    simp only [List.foldl_cons, h0, Bool.false_eq_true, if_false]
    exact ih fun t ht => h t (by simp [ht])

theorem get_logos_path_err_of_bad (files : String → FInfo) (a : String)
    (h : permBad (files a)) : ∃ m, get_logos_path files a = .error (.perm m) := by
  obtain ⟨h1, h2, h3⟩ := h
  have h2m : (files a).ext ∈ logos_extensions := by simpa using h2
  cases hrd : (files a).readable with
  | false => exact ⟨"Cannot read Logos file " ++ a, by simp [get_logos_path, h1, h2m, hrd]⟩
  | true =>
    have hw : (files a).writable = false := by
      rcases h3 with h3 | h3
      · rw [hrd] at h3; cases h3
      · exact h3
    exact ⟨"Cannot write Logos file " ++ a, by simp [get_logos_path, h1, h2m, hrd, hw]⟩

theorem get_logos_path_error_perm (files : String → FInfo) (a : String) (e : Err)
    (hg : get_logos_path files a = .error e) : ∃ m, e = .perm m := by
  unfold get_logos_path at hg
  split at hg
  · split at hg
    · injection hg with h; exact ⟨_, h.symm⟩
    · split at hg
      · injection hg with h; exact ⟨_, h.symm⟩
      · cases hg
  · cases hg

theorem get_logos_path_ok_of_not_bad (files : String → FInfo) (a : String)
    (h : ¬ permBad (files a)) : ∃ o, get_logos_path files a = .ok o := by
  by_cases h1 : ((files a).isFile && logos_extensions.contains (files a).ext) = true
  · obtain ⟨hf, hc⟩ := Bool.and_eq_true_iff.mp h1
    have hr : (files a).readable = true := by
      cases hrd : (files a).readable with
      | true => rfl
      | false => exact absurd ⟨hf, hc, Or.inl hrd⟩ h
    have hw : (files a).writable = true := by
      cases hwr : (files a).writable with
      | true => rfl
      | false => exact absurd ⟨hf, hc, Or.inr hwr⟩ h
    have hcm : (files a).ext ∈ logos_extensions := by simpa using hc
    exact ⟨some a, by simp [get_logos_path, hf, hcm, hr, hw]⟩
  · exact ⟨none, by unfold get_logos_path; rw [if_neg h1]⟩

theorem get_logos_path_some (files : String → FInfo) (a p : String)
    (hg : get_logos_path files a = .ok (some p)) :
    p = a ∧ logos_extensions.contains ((files a).ext) = true := by
  unfold get_logos_path at hg
  split at hg
  case isTrue h1 =>
    split at hg
    · cases hg
    · split at hg
      · cases hg
      · injection hg with h
        injection h with h
        exact ⟨h.symm, (Bool.and_eq_true_iff.mp h1).2⟩
  case isFalse h1 => injection hg with h; cases h

theorem classify_error_of_bad (files : String → FInfo) (args : List String)
    (h : ∃ a ∈ args, permBad (files a)) :
    ∃ m, classify files args = .error (.perm m) := by
  induction args with
  | nil => obtain ⟨a, ha, _⟩ := h; cases ha
  | cons a as ih =>
    obtain ⟨b, hb, hbad⟩ := h
    rcases List.mem_cons.mp hb with rfl | hb'
    · obtain ⟨m, hm⟩ := get_logos_path_err_of_bad files b hbad
      exact ⟨m, by simp [classify, hm]⟩
    · cases hg : get_logos_path files a with
      | error e =>
        obtain ⟨m, rfl⟩ := get_logos_path_error_perm files a e hg
        exact ⟨m, by simp [classify, hg]⟩
      | ok o =>
        obtain ⟨m, hm⟩ := ih ⟨b, hb', hbad⟩
        cases o with
        | some p => exact ⟨m, by simp [classify, hg, hm, Except.map]⟩
        | none => exact ⟨m, by simp [classify, hg, hm]⟩

theorem classify_ok_of_no_bad (files : String → FInfo) (args : List String)
    (h : ∀ a ∈ args, ¬ permBad (files a)) :
    ∃ rec, classify files args = .ok rec := by
  induction args with
  | nil => exact ⟨[], rfl⟩
  | cons a as ih =>
    obtain ⟨o, ho⟩ := get_logos_path_ok_of_not_bad files a (h a (by simp))
    obtain ⟨rec, hrec⟩ := ih fun t ht => h t (by simp [ht])
    cases o with
    | some p => exact ⟨p :: rec, by simp [classify, ho, hrec, Except.map]⟩
    | none => exact ⟨rec, by simp [classify, ho, hrec]⟩

theorem classify_mem_recognized (files : String → FInfo) (args : List String) :
    ∀ rec, classify files args = .ok rec →
    ∀ arg ∈ rec, logos_extensions.contains ((files arg).ext) = true := by
  induction args with
  | nil =>
    intro rec h arg ha
    injection h with h
    subst h
    cases ha
  | cons a as ih =>
    intro rec h arg ha
    unfold classify at h
    cases hg : get_logos_path files a with
    | error e => rw [hg] at h; cases h
    | ok o =>
      rw [hg] at h
      cases o with
      | none => exact ih rec h arg ha
      | some p =>
        cases hc : classify files as with
        | error e => rw [hc] at h; cases h
        | ok rec2 =>
          rw [hc] at h
          injection h with h
          subst h
          rcases List.mem_cons.mp ha with rfl | ha'
          · obtain ⟨rfl, hmem⟩ := get_logos_path_some files a arg hg
            exact hmem
          · exact ih rec2 hc arg ha'

/-! ## Prefix and containment lemmas -/

theorem pfxP {u v : List Char} (h : u.isPrefixOf v = true) : u <+: v :=
  List.isPrefixOf_iff_prefix.mp h

theorem pfxB {u v : List Char} (h : u <+: v) : u.isPrefixOf v = true :=
  List.isPrefixOf_iff_prefix.mpr h

theorem pfx_nil_left (v : List Char) : ([] : List Char).isPrefixOf v = true := by
  cases v <;> rfl

theorem pfx_append_right {u v : List Char} (w : List Char) (h : u.isPrefixOf v = true) :
    u.isPrefixOf (v ++ w) = true :=
  pfxB ((pfxP h).trans (List.prefix_append v w))

theorem pfx_decompose {u v : List Char} (h : u.isPrefixOf v = true) :
    v = u ++ v.drop u.length := by
  obtain ⟨w, rfl⟩ := pfxP h
  rw [List.drop_left]

theorem pfx_of_le {q u v : List Char} (h : q.isPrefixOf (u ++ v) = true)
    (hl : q.length ≤ u.length) : q.isPrefixOf u = true :=
  pfxB (List.prefix_of_prefix_length_le (pfxP h) (List.prefix_append u v) hl)

theorem pfx_of_ge {q u v : List Char} (h : q.isPrefixOf (u ++ v) = true)
    (hl : u.length ≤ q.length) : u.isPrefixOf q = true :=
  pfxB (List.prefix_of_prefix_length_le (List.prefix_append u v) (pfxP h) hl)

/-- Appending one character `x ∉ pat` at the end does not affect whether a
non-empty `pat` is a prefix. -/
theorem pfx_snoc (x : Char) : ∀ (pat v : List Char), x ∉ pat →
    pat.isPrefixOf (v ++ [x]) = pat.isPrefixOf v := by
  intro pat
  induction pat with
  | nil => intro v _; rw [pfx_nil_left, pfx_nil_left]
  | cons p pr ih =>
    intro v hx
    cases v with
    | nil =>
      show (p :: pr).isPrefixOf [x] = false
      have hpx : (p == x) = false := by
        cases hpe : p == x with
        | true => exact absurd (by simp [beq_iff_eq.mp hpe]) hx
        | false => rfl
      show (p == x && pr.isPrefixOf []) = false
      rw [hpx, Bool.false_and]
    | cons b v2 =>
      show (p == b && pr.isPrefixOf (v2 ++ [x])) = (p == b && pr.isPrefixOf v2)
      rw [ih v2 fun hm => hx (by simp [hm])]

theorem subTokF_eq (name : List Char) : ∀ (k : Nat) (s : List Char) (f1 f2 : Nat),
    s.length ≤ k → s.length ≤ f1 → s.length ≤ f2 →
    subTokF name f1 s = subTokF name f2 s := by
  intro k
  induction k with
  | zero =>
    intro s f1 f2 hk _ _
    have hs : s = [] := List.length_eq_zero.mp (Nat.le_zero.mp hk)
    subst hs
    cases f1 <;> cases f2 <;> rfl
  | succ k ih =>
    intro s f1 f2 hk h1 h2
    cases s with
    | nil => cases f1 <;> cases f2 <;> rfl
    | cons c rest =>
      cases f1 with
      | zero => exact absurd h1 (by simp)
      | succ g1 =>
        cases f2 with
        | zero => exact absurd h2 (by simp)
        | succ g2 =>
          simp only [subTokF]
          have hr : rest.length ≤ k := Nat.le_of_succ_le_succ hk
          have hr1 : rest.length ≤ g1 := Nat.le_of_succ_le_succ h1
          have hr2 : rest.length ≤ g2 := Nat.le_of_succ_le_succ h2
          have hd : (rest.drop name.length).length ≤ rest.length :=
            (List.length_drop ..).le.trans (Nat.sub_le ..)
          split
          · rw [ih (rest.drop name.length) g1 g2 (hd.trans hr) (hd.trans hr1) (hd.trans hr2)]
          · rw [ih rest g1 g2 hr hr1 hr2]

theorem subTok_nil (name : List Char) : subTok name [] = [] := rfl

theorem subTok_cons (name : List Char) (c : Char) (rest : List Char) :
    subTok name (c :: rest) =
      if c == '%' && matchAt name rest then
        marker ++ name ++ subTok name (rest.drop name.length)
      else c :: subTok name rest := by
  show subTokF name (c :: rest).length (c :: rest) = _
  have hd : (rest.drop name.length).length ≤ rest.length :=
    (List.length_drop ..).le.trans (Nat.sub_le ..)
  simp only [List.length_cons, subTokF]
  split
  · rw [subTokF_eq name rest.length (rest.drop name.length) rest.length
      (rest.drop name.length).length hd hd le_rfl]
    rfl
  · rw [subTokF_eq name rest.length rest rest.length rest.length le_rfl le_rfl le_rfl]
    rfl

theorem replaceAllF_eq (p : Char) (ps repl : List Char) :
    ∀ (k : Nat) (s : List Char) (f1 f2 : Nat),
    s.length ≤ k → s.length ≤ f1 → s.length ≤ f2 →
    replaceAllF p ps repl f1 s = replaceAllF p ps repl f2 s := by
  intro k
  induction k with
  | zero =>
    intro s f1 f2 hk _ _
    have hs : s = [] := List.length_eq_zero.mp (Nat.le_zero.mp hk)
    subst hs
    cases f1 <;> cases f2 <;> rfl
  | succ k ih =>
    intro s f1 f2 hk h1 h2
    cases s with
    | nil => cases f1 <;> cases f2 <;> rfl
    | cons c rest =>
      cases f1 with
      | zero => exact absurd h1 (by simp)
      | succ g1 =>
        cases f2 with
        | zero => exact absurd h2 (by simp)
        | succ g2 =>
          simp only [replaceAllF]
          have hr : rest.length ≤ k := Nat.le_of_succ_le_succ hk
          have hr1 : rest.length ≤ g1 := Nat.le_of_succ_le_succ h1
          have hr2 : rest.length ≤ g2 := Nat.le_of_succ_le_succ h2
          have hd : (rest.drop ps.length).length ≤ rest.length :=
            (List.length_drop ..).le.trans (Nat.sub_le ..)
          split
          · rw [ih (rest.drop ps.length) g1 g2 (hd.trans hr) (hd.trans hr1) (hd.trans hr2)]
          · rw [ih rest g1 g2 hr hr1 hr2]

theorem replaceAll_nil (p : Char) (ps repl : List Char) : replaceAll p ps repl [] = [] := rfl

theorem replaceAll_cons (p : Char) (ps repl : List Char) (c : Char) (rest : List Char) :
    replaceAll p ps repl (c :: rest) =
      if (p :: ps).isPrefixOf (c :: rest) then
        repl ++ replaceAll p ps repl (rest.drop ps.length)
      else c :: replaceAll p ps repl rest := by
  show replaceAllF p ps repl (c :: rest).length (c :: rest) = _
  have hd : (rest.drop ps.length).length ≤ rest.length :=
    (List.length_drop ..).le.trans (Nat.sub_le ..)
  simp only [List.length_cons, replaceAllF]
  split
  · rw [replaceAllF_eq p ps repl rest.length (rest.drop ps.length) rest.length
      (rest.drop ps.length).length hd hd le_rfl]
    rfl
  · rw [replaceAllF_eq p ps repl rest.length rest rest.length rest.length le_rfl le_rfl le_rfl]
    rfl

/-! ## Containment lemmas -/

theorem pfx_cons_cons (a b : Char) (as bs : List Char) :
    (a :: as).isPrefixOf (b :: bs) = (a == b && as.isPrefixOf bs) := rfl

theorem containsTok_nil (pat : List Char) : containsTok pat [] = pat.isEmpty := rfl

theorem containsTok_cons (pat : List Char) (c : Char) (rest : List Char) :
    containsTok pat (c :: rest) = (pat.isPrefixOf (c :: rest) || containsTok pat rest) := rfl

theorem contains_of_pfx {pat s : List Char} (h : pat.isPrefixOf s = true) :
    containsTok pat s = true := by
  cases s with
  | nil =>
    cases pat with
    | nil => rfl
    | cons p pr => cases h
  | cons c rest => rw [containsTok_cons, h, Bool.true_or]

theorem contains_cons {pat s : List Char} (c : Char) (h : containsTok pat s = true) :
    containsTok pat (c :: s) = true := by
  rw [containsTok_cons, h, Bool.or_true]

theorem contains_append_left {pat t : List Char} (u : List Char)
    (h : containsTok pat t = true) : containsTok pat (u ++ t) = true := by
  induction u with
  | nil => exact h
  | cons c u2 ih => exact contains_cons c ih

theorem contains_append_right {pat u : List Char} (v : List Char)
    (h : containsTok pat u = true) : containsTok pat (u ++ v) = true := by
  induction u with
  | nil =>
    have hp : pat = [] := by
      cases pat with
      | nil => rfl
      | cons p pr => cases h
    subst hp
    cases v with
    | nil => rfl
    | cons c v2 => exact contains_of_pfx (pfx_nil_left _)
  | cons c u2 ih =>
    rw [containsTok_cons] at h
    rcases Bool.or_eq_true_iff.mp h with h | h
    · exact contains_of_pfx (pfx_append_right v h)
    · exact contains_cons c (ih h)

theorem contains_skip {p0 : Char} {pr t : List Char} (u : List Char)
    (hu : ∀ c ∈ u, c ≠ p0) :
    containsTok (p0 :: pr) (u ++ t) = containsTok (p0 :: pr) t := by
  induction u with
  | nil => rfl
  | cons c u2 ih =>
    have hc : (p0 == c) = false := by
      cases hpe : p0 == c with
      | true => exact absurd (beq_iff_eq.mp hpe).symm (hu c (by simp))
      | false => rfl
    rw [List.cons_append, containsTok_cons, pfx_cons_cons, hc, Bool.false_and, Bool.false_or]
    exact ih fun d hd => hu d (by simp [hd])

theorem contains_snoc {p0 : Char} {pr : List Char} (x : Char) (u : List Char)
    (hx : x ∉ p0 :: pr) :
    containsTok (p0 :: pr) (u ++ [x]) = containsTok (p0 :: pr) u := by
  induction u with
  | nil =>
    rw [List.nil_append, containsTok_cons, containsTok_nil]
    have h1 : (p0 :: pr).isPrefixOf [x] = false := by
      rw [show ([x] : List Char) = [] ++ [x] from rfl, pfx_snoc x (p0 :: pr) [] hx]
      rfl
    rw [h1, Bool.false_or]
  | cons c u2 ih =>
    rw [List.cons_append, containsTok_cons, containsTok_cons,
      show c :: (u2 ++ [x]) = (c :: u2) ++ [x] from rfl,
      pfx_snoc x (p0 :: pr) (c :: u2) hx, ih]

theorem contains_append_rep {p0 x : Char} {pr : List Char} (hx : x ∉ p0 :: pr) :
    ∀ (k : Nat) (u : List Char),
    containsTok (p0 :: pr) (u ++ List.replicate k x) = containsTok (p0 :: pr) u := by
  intro k
  induction k with
  | zero => intro u; rw [List.replicate_zero, List.append_nil]
  | succ k ih =>
    intro u
    rw [List.replicate_succ' k x, ← List.append_assoc, contains_snoc x _ hx, ih]

theorem hasBOcc_nil (name : List Char) : hasBOcc name [] = false := rfl

theorem hasBOcc_cons (name : List Char) (c : Char) (rest : List Char) :
    hasBOcc name (c :: rest) = ((c == '%' && matchAt name rest) || hasBOcc name rest) := rfl

theorem hasBOcc_cons_of {name s : List Char} (c : Char) (h : hasBOcc name s = true) :
    hasBOcc name (c :: s) = true := by
  rw [hasBOcc_cons, h, Bool.or_true]

theorem hasBOcc_append_left {name t : List Char} (u : List Char)
    (h : hasBOcc name t = true) : hasBOcc name (u ++ t) = true := by
  induction u with
  | nil => exact h
  | cons c u2 ih => exact hasBOcc_cons_of c ih

theorem hasBOcc_skip {name t : List Char} (u : List Char) (hu : ∀ c ∈ u, c ≠ '%') :
    hasBOcc name (u ++ t) = hasBOcc name t := by
  induction u with
  | nil => rfl
  | cons c u2 ih =>
    have hc : (c == '%') = false := by
      cases hpe : c == '%' with
      | true => exact absurd (beq_iff_eq.mp hpe) (hu c (by simp))
      | false => rfl
    rw [List.cons_append, hasBOcc_cons, hc, Bool.false_and, Bool.false_or]
    exact ih fun d hd => hu d (by simp [hd])

theorem contains_of_hasBOcc {name s : List Char} (h : hasBOcc name s = true) :
    containsTok ('%' :: name) s = true := by
  induction s with
  | nil => cases h
  | cons c rest ih =>
    rw [hasBOcc_cons] at h
    rcases Bool.or_eq_true_iff.mp h with h | h
    · obtain ⟨hc, hm⟩ := Bool.and_eq_true_iff.mp h
      have hpfx : name.isPrefixOf rest = true := by
        simp only [matchAt] at hm
        exact (Bool.and_eq_true_iff.mp hm).1
      have hc2 : ('%' == c) = true := by
        rw [beq_iff_eq.mp hc]
        exact beq_self_eq_true '%' 
      exact contains_of_pfx (by rw [pfx_cons_cons, hc2, Bool.true_and]; exact hpfx)
    · exact contains_cons c (ih h)

theorem matchAt_snoc {name : List Char} (x : Char) (u : List Char)
    (hxn : x ∉ name) (hxw : wordChar x = false) :
    matchAt name (u ++ [x]) = matchAt name u := by
  simp only [matchAt]
  rw [pfx_snoc x name u hxn]
  cases hp : name.isPrefixOf u with
  | false => rw [Bool.false_and, Bool.false_and]
  | true =>
    rw [Bool.true_and, Bool.true_and]
    obtain ⟨w, rfl⟩ := pfxP hp
    simp only [bAfter]
    have h1 : ((name ++ w) ++ [x]).drop name.length = w ++ [x] := by
      rw [List.append_assoc, List.drop_left]
    have h2 : (name ++ w).drop name.length = w := List.drop_left ..
    rw [h1, h2]
    cases w with
    | nil => simp [hxw]
    | cons d w2 => rfl

theorem subTok_snoc {name : List Char} (x : Char)
    (hxn : x ∉ name) (hxp : x ≠ '%') (hxw : wordChar x = false) :
    ∀ (k : Nat) (u : List Char), u.length ≤ k →
    subTok name (u ++ [x]) = subTok name u ++ [x] := by
  have hxbeq : (x == '%') = false := by
    cases hpe : x == '%' with
    | true => exact absurd (beq_iff_eq.mp hpe) hxp
    | false => rfl
  intro k
  induction k with
  | zero =>
    intro u hu
    have h0 : u = [] := List.length_eq_zero.mp (Nat.le_zero.mp hu)
    subst h0
    rw [List.nil_append, subTok_cons, hxbeq, Bool.false_and]
    simp [subTok_nil]
  | succ k ih =>
    intro u hu
    cases u with
    | nil =>
      rw [List.nil_append, subTok_cons, hxbeq, Bool.false_and]
      simp [subTok_nil]
    | cons c u2 =>
      have hu2 : u2.length ≤ k := Nat.le_of_succ_le_succ hu
      rw [List.cons_append, subTok_cons, subTok_cons, matchAt_snoc x u2 hxn hxw]
      cases hcond : (c == '%' && matchAt name u2) with
      | false =>
        simp only [Bool.false_eq_true, if_false]
        rw [ih u2 hu2, List.cons_append]
      | true =>
        simp only [if_true]
        have hm : matchAt name u2 = true := (Bool.and_eq_true_iff.mp hcond).2
        have hpfx : name.isPrefixOf u2 = true := by
          simp only [matchAt] at hm
          exact (Bool.and_eq_true_iff.mp hm).1
        have hlen : name.length ≤ u2.length := (pfxP hpfx).length_le
        have hdrop : (u2 ++ [x]).drop name.length = u2.drop name.length ++ [x] :=
          List.drop_append_of_le_length hlen
        have hdl : (u2.drop name.length).length ≤ k :=
          le_trans ((List.length_drop ..).le.trans (Nat.sub_le ..)) hu2
        rw [hdrop, ih (u2.drop name.length) hdl]
        simp [List.append_assoc]

theorem subTok_append_rep {name : List Char} (x : Char)
    (hxn : x ∉ name) (hxp : x ≠ '%') (hxw : wordChar x = false) :
    ∀ (k : Nat) (u : List Char),
    subTok name (u ++ List.replicate k x) = subTok name u ++ List.replicate k x := by
  intro k
  induction k with
  | zero => intro u; rw [List.replicate_zero, List.append_nil, List.append_nil]
  | succ k ih =>
    intro u
    rw [List.replicate_succ' k x, ← List.append_assoc, ← List.append_assoc,
      subTok_snoc x hxn hxp hxw (u ++ List.replicate k x).length _ le_rfl, ih]

theorem replaceAll_snoc {p0 : Char} {pr repl : List Char} (x : Char) (hx : x ∉ p0 :: pr) :
    ∀ (k : Nat) (u : List Char), u.length ≤ k →
    replaceAll p0 pr repl (u ++ [x]) = replaceAll p0 pr repl u ++ [x] := by
  intro k
  induction k with
  | zero =>
    intro u hu
    have h0 : u = [] := List.length_eq_zero.mp (Nat.le_zero.mp hu)
    subst h0
    rw [List.nil_append, replaceAll_cons,
      show ([x] : List Char) = [] ++ [x] from rfl, pfx_snoc x (p0 :: pr) [] hx]
    simp [replaceAll_nil]
  | succ k ih =>
    intro u hu
    cases u with
    | nil =>
      rw [List.nil_append, replaceAll_cons,
        show ([x] : List Char) = [] ++ [x] from rfl, pfx_snoc x (p0 :: pr) [] hx]
      simp [replaceAll_nil]
    | cons c u2 =>
      have hu2 : u2.length ≤ k := Nat.le_of_succ_le_succ hu
      rw [List.cons_append, replaceAll_cons, replaceAll_cons,
        show c :: (u2 ++ [x]) = (c :: u2) ++ [x] from rfl,
        pfx_snoc x (p0 :: pr) (c :: u2) hx]
      cases hcond : (p0 :: pr).isPrefixOf (c :: u2) with
      | false =>
        simp only [Bool.false_eq_true, if_false]
        rw [ih u2 hu2, List.cons_append]
      | true =>
        simp only [if_true]
        have hpr : pr.isPrefixOf u2 = true := by
          rw [pfx_cons_cons] at hcond
          exact (Bool.and_eq_true_iff.mp hcond).2
        have hlen : pr.length ≤ u2.length := (pfxP hpr).length_le
        have hdrop : (u2 ++ [x]).drop pr.length = u2.drop pr.length ++ [x] :=
          List.drop_append_of_le_length hlen
        have hdl : (u2.drop pr.length).length ≤ k :=
          le_trans ((List.length_drop ..).le.trans (Nat.sub_le ..)) hu2
        rw [hdrop, ih (u2.drop pr.length) hdl]
        simp [List.append_assoc]

theorem replaceAll_append_rep {p0 : Char} {pr repl : List Char} (x : Char) (hx : x ∉ p0 :: pr) :
    ∀ (k : Nat) (u : List Char),
    replaceAll p0 pr repl (u ++ List.replicate k x)
      = replaceAll p0 pr repl u ++ List.replicate k x := by
  intro k
  induction k with
  | zero => intro u; rw [List.replicate_zero, List.append_nil, List.append_nil]
  | succ k ih =>
    intro u
    rw [List.replicate_succ' k x, ← List.append_assoc, ← List.append_assoc,
      replaceAll_snoc x hx (u ++ List.replicate k x).length _ le_rfl, ih]

/-! ## The replacement relation `Rel` -/

theorem pfx_self_append (u v : List Char) : u.isPrefixOf (u ++ v) = true :=
  pfxB (List.prefix_append u v)

theorem relRefl (N : List (List Char)) : ∀ s : List Char, Rel N s s
  | [] => Rel.nil
  | c :: s => Rel.keep c (relRefl N s)

theorem rel_nil_left {N : List (List Char)} {t : List Char} (h : Rel N [] t) : t = [] := by
  generalize hs : ([] : List Char) = s0 at h
  cases h with
  | nil => rfl
  | keep c h2 => cases hs
  | sub hn h2 => cases hs

theorem rel_cons_inv {N : List (List Char)} {c : Char} {s1 t : List Char}
    (h : Rel N (c :: s1) t) :
    (∃ t1, t = c :: t1 ∧ Rel N s1 t1) ∨
      (c = '%' ∧ ∃ name s0 t0, name ∈ N ∧ s1 = name ++ s0 ∧
        t = (marker ++ name) ++ t0 ∧ Rel N s0 t0) := by
  generalize hs : c :: s1 = sv at h
  cases h with
  | nil => cases hs
  | keep c2 h2 =>
    injection hs with hc hs2
    subst hc
    subst hs2
    exact Or.inl ⟨_, rfl, h2⟩
  | sub hn h2 =>
    injection hs with hc hs2
    exact Or.inr ⟨hc, _, _, _, hn, hs2, rfl, h2⟩

theorem rel_cons_inv_right {N : List (List Char)} {c : Char} {s t1 : List Char}
    (h : Rel N s (c :: t1)) :
    (∃ s1, s = c :: s1 ∧ Rel N s1 t1) ∨
      (c = '@' ∧ ∃ name s0 t0, name ∈ N ∧ s = '%' :: (name ++ s0) ∧
        t1 = (markerTail ++ name) ++ t0 ∧ Rel N s0 t0) := by
  generalize ht : c :: t1 = tv at h
  cases h with
  | nil => cases ht
  | keep c2 h2 =>
    injection ht with hc ht2
    subst hc
    subst ht2
    exact Or.inl ⟨_, rfl, h2⟩
  | sub hn h2 =>
    rw [show ∀ (nm tt : List Char), (marker ++ nm) ++ tt = '@' :: ((markerTail ++ nm) ++ tt)
      from fun nm tt => rfl] at ht
    injection ht with hc ht2
    exact Or.inr ⟨hc, _, _, _, hn, rfl, ht2, h2⟩

theorem relStripLeft {N : List (List Char)} :
    ∀ (u : List Char) {s t : List Char}, (∀ c ∈ u, c ≠ '%') →
    Rel N (u ++ s) t → ∃ t2, t = u ++ t2 ∧ Rel N s t2 := by
  intro u
  induction u with
  | nil => intro s t _ h; exact ⟨t, rfl, h⟩
  | cons c u2 ih =>
    intro s t hu h
    rcases rel_cons_inv h with ⟨t1, rfl, h2⟩ | ⟨hc, _, _, _, _, _, _, _⟩
    · obtain ⟨t2, rfl, h3⟩ := ih (fun d hd => hu d (by simp [hd])) h2
      exact ⟨t2, rfl, h3⟩
    · exact absurd hc (hu c (by simp))

theorem relStripRight {N : List (List Char)} :
    ∀ (u : List Char) {s t : List Char}, (∀ c ∈ u, c ≠ '@') →
    Rel N s (u ++ t) → ∃ s2, s = u ++ s2 ∧ Rel N s2 t := by
  intro u
  induction u with
  | nil => intro s t _ h; exact ⟨s, rfl, h⟩
  | cons c u2 ih =>
    intro s t hu h
    rcases rel_cons_inv_right h with ⟨s1, rfl, h2⟩ | ⟨hc, _, _, _, _, _, _, _⟩
    · obtain ⟨s2, rfl, h3⟩ := ih (fun d hd => hu d (by simp [hd])) h2
      exact ⟨s2, rfl, h3⟩
    · exact absurd hc (hu c (by simp))

theorem rel_eq_of_no_marker {N : List (List Char)} :
    ∀ {s t : List Char}, Rel N s t → containsTok marker t = false → s = t := by
  intro s t h
  induction h with
  | nil => intro _; rfl
  | keep c h2 ih =>
    intro hm
    rw [containsTok_cons] at hm
    rcases Bool.or_eq_false_iff.mp hm with ⟨_, hm2⟩
    rw [ih hm2]
  | sub hn h2 ih =>
    intro hm
    rw [List.append_assoc, contains_of_pfx (pfx_self_append marker _)] at hm
    cases hm

theorem rel_contains_marker_mono {N : List (List Char)}
    (hmt : ∀ c ∈ markerTail, c ≠ '%') :
    ∀ {s t : List Char}, Rel N s t → containsTok marker s = true →
    containsTok marker t = true := by
  intro s t h
  induction h with
  | nil => intro hm; cases hm
  | keep c h2 ih =>
    intro hm
    rw [containsTok_cons] at hm
    rcases Bool.or_eq_true_iff.mp hm with hm | hm
    · rw [show marker = '@' :: markerTail from rfl, pfx_cons_cons] at hm
      obtain ⟨hat, hmt2⟩ := Bool.and_eq_true_iff.mp hm
      obtain ⟨w, hw⟩ := pfxP hmt2
      rw [← hw] at h2
      obtain ⟨t2, rfl, _⟩ := relStripLeft markerTail hmt h2
      refine contains_of_pfx ?_
      rw [show marker = '@' :: markerTail from rfl, pfx_cons_cons, hat, Bool.true_and]
      exact pfx_self_append markerTail t2
    · exact contains_cons c (ih hm)
  | sub hn h2 ih =>
    intro _
    exact contains_of_pfx (by rw [List.append_assoc]; exact pfx_self_append marker _)

theorem subTok_skip {name : List Char} :
    ∀ (u : List Char), (∀ c ∈ u, c ≠ '%') → ∀ (t : List Char),
    subTok name (u ++ t) = u ++ subTok name t := by
  intro u
  induction u with
  | nil => intro _ t; rfl
  | cons c u2 ih =>
    intro hu t
    have hc : (c == '%') = false := by
      cases hpe : c == '%' with
      | true => exact absurd (beq_iff_eq.mp hpe) (hu c (by simp))
      | false => rfl
    rw [List.cons_append, subTok_cons, hc, Bool.false_and]
    simp only [Bool.false_eq_true, if_false]
    rw [ih (fun d hd => hu d (by simp [hd])) t, List.cons_append]

/-! ## Facts about the concrete directive names -/

theorem markerTail_no_pct : ∀ c ∈ markerTail, c ≠ '%' := by decide

theorem marker_no_pct : ∀ c ∈ marker, c ≠ '%' := by decide

theorem allNames_chars : ∀ n ∈ allNames, ∀ c ∈ n, c ≠ '@' ∧ c ≠ '%' := by decide

/-! ## Substitution preserves the replacement relation -/

theorem relSubTok_aux {N : List (List Char)} {name : List Char} (hname : name ∈ N)
    (hmk : ∀ n ∈ N, ∀ c ∈ n, c ≠ '@' ∧ c ≠ '%') :
    ∀ (k : Nat) {s t : List Char}, t.length ≤ k → Rel N s t → Rel N s (subTok name t) := by
  intro k
  induction k with
  | zero =>
    intro s t ht h
    have h0 : t = [] := List.length_eq_zero.mp (Nat.le_zero.mp ht)
    subst h0
    rw [subTok_nil]
    exact h
  | succ k ih =>
    intro s t ht h
    cases h with
    | nil => rw [subTok_nil]; exact Rel.nil
    | keep c h2 =>
      rename_i s0 t0
      rw [subTok_cons]
      have ht0 : t0.length ≤ k := Nat.le_of_succ_le_succ ht
      cases hcond : (c == '%' && matchAt name t0) with
      | false =>
        simp only [Bool.false_eq_true, if_false]
        exact Rel.keep c (ih ht0 h2)
      | true =>
        simp only [if_true]
        obtain ⟨hc, hm⟩ := Bool.and_eq_true_iff.mp hcond
        have hpfx : name.isPrefixOf t0 = true := by
          simp only [matchAt] at hm
          exact (Bool.and_eq_true_iff.mp hm).1
        obtain ⟨w, hw⟩ := pfxP hpfx
        rw [← hw] at h2
        obtain ⟨s1, hs1, h3⟩ := relStripRight name (fun d hd => (hmk name hname d hd).1) h2
        have hwlen : w.length ≤ k := by
          have h5 : t0.length = name.length + w.length := by
            rw [← hw, List.length_append]
          omega
        have hdrop : t0.drop name.length = w := by
          rw [← hw, List.drop_left]
        rw [hdrop, hs1, beq_iff_eq.mp hc, List.append_assoc]
        exact Rel.sub hname (ih hwlen h3)
    | sub hn h2 =>
      rename_i name2 s0 t0
      have hnp : ∀ c ∈ (marker ++ name2), c ≠ '%' := by
        intro d hd
        rcases List.mem_append.mp hd with hd | hd
        · exact marker_no_pct d hd
        · exact (hmk name2 hn d hd).2
      have hlen : t0.length ≤ k := by
        rw [List.length_append] at ht
        have h5 : 0 < (marker ++ name2).length := by
          rw [List.length_append]
          have : marker.length = 12 := by decide
          omega
        omega
      rw [subTok_skip (marker ++ name2) hnp t0]
      exact Rel.sub hn (ih hlen h2)

theorem relSubTok {N : List (List Char)} {name : List Char} (hname : name ∈ N)
    (hmk : ∀ n ∈ N, ∀ c ∈ n, c ≠ '@' ∧ c ≠ '%')
    {s t : List Char} (h : Rel N s t) : Rel N s (subTok name t) :=
  relSubTok_aux hname hmk t.length le_rfl h

/-- Containment of a directive text `%q` in a transformed line reflects back
to the original line. -/
theorem rel_contains_reflect {N : List (List Char)} {q : List Char}
    (hq : ∀ c ∈ q, c ≠ '@') (hmk : ∀ n ∈ N, ∀ c ∈ n, c ≠ '@' ∧ c ≠ '%') :
    ∀ {s t : List Char}, Rel N s t → containsTok ('%' :: q) t = true →
    containsTok ('%' :: q) s = true := by
  intro s t h
  induction h with
  | nil => intro hct; cases hct
  | keep c h2 ih =>
    intro hct
    rw [containsTok_cons] at hct
    rcases Bool.or_eq_true_iff.mp hct with hct | hct
    · rw [pfx_cons_cons] at hct
      obtain ⟨hc, hqp⟩ := Bool.and_eq_true_iff.mp hct
      obtain ⟨w, hw⟩ := pfxP hqp
      rw [← hw] at h2
      obtain ⟨s2, hs2, _⟩ := relStripRight q hq h2
      rw [hs2]
      refine contains_of_pfx ?_
      rw [pfx_cons_cons, hc, Bool.true_and]
      exact pfx_self_append q s2
    · exact contains_cons c (ih hct)
  | sub hn h2 ih =>
    intro hct
    rename_i name2 s0 t0
    have hnp : ∀ c ∈ (marker ++ name2), c ≠ '%' := by
      intro d hd
      rcases List.mem_append.mp hd with hd | hd
      · exact marker_no_pct d hd
      · exact (hmk name2 hn d hd).2
    rw [contains_skip (marker ++ name2) hnp] at hct
    have h4 := ih hct
    rw [show ('%' :: (name2 ++ s0) : List Char) = ('%' :: name2) ++ s0 from rfl]
    exact contains_append_left ('%' :: name2) h4

/-- Containment of a directive text `%q` in the original line is preserved in
the transformed line, provided no replaced name is prefix-entangled with `q`. -/
theorem rel_contains_preserve {N : List (List Char)} {q : List Char}
    (hq : ∀ c ∈ q, c ≠ '%')
    (hmk : ∀ n ∈ N, ∀ c ∈ n, c ≠ '@' ∧ c ≠ '%')
    (hpair : ∀ n ∈ N, q.isPrefixOf n = false ∧ n.isPrefixOf q = false) :
    ∀ {s t : List Char}, Rel N s t → containsTok ('%' :: q) s = true →
    containsTok ('%' :: q) t = true := by
  intro s t h
  induction h with
  | nil => intro hct; cases hct
  | keep c h2 ih =>
    intro hct
    rw [containsTok_cons] at hct
    rcases Bool.or_eq_true_iff.mp hct with hct | hct
    · rw [pfx_cons_cons] at hct
      obtain ⟨hc, hqp⟩ := Bool.and_eq_true_iff.mp hct
      obtain ⟨w, hw⟩ := pfxP hqp
      rw [← hw] at h2
      obtain ⟨t2, ht2, _⟩ := relStripLeft q hq h2
      rw [ht2]
      refine contains_of_pfx ?_
      rw [pfx_cons_cons, hc, Bool.true_and]
      exact pfx_self_append q t2
    · exact contains_cons c (ih hct)
  | sub hn h2 ih =>
    intro hct
    rename_i name2 s0 t0
    rw [containsTok_cons] at hct
    rcases Bool.or_eq_true_iff.mp hct with hct | hct
    · rw [pfx_cons_cons] at hct
      obtain ⟨_, hqp⟩ := Bool.and_eq_true_iff.mp hct
      exfalso
      rcases Nat.le_total q.length name2.length with hle | hge
      · have h5 := (hpair name2 hn).1
        rw [pfx_of_le hqp hle] at h5
        cases h5
      · have h5 := (hpair name2 hn).2
        rw [pfx_of_ge hqp hge] at h5
        cases h5
    · rw [contains_skip name2 (fun d hd => (hmk name2 hn d hd).2)] at hct
      have h4 := ih hct
      rw [List.append_assoc]
      exact contains_append_left marker (contains_append_left name2 h4)

theorem markerTail_no_at : ∀ c ∈ markerTail, c ≠ '@' := by decide

/-- A word-boundary occurrence of `%q` in the original line survives the
replacement of other, prefix-incompatible names. -/
theorem rel_hasBOcc_preserve {N : List (List Char)} {q : List Char}
    (hq : ∀ c ∈ q, c ≠ '%')
    (hmk : ∀ n ∈ N, ∀ c ∈ n, c ≠ '@' ∧ c ≠ '%')
    (hpair : ∀ n ∈ N, n.isPrefixOf q = false ∧
      (q.isPrefixOf n = true → ∃ d w, n.drop q.length = d :: w ∧ wordChar d = true)) :
    ∀ {s t : List Char}, Rel N s t → hasBOcc q s = true → hasBOcc q t = true := by
  intro s t h
  induction h with
  | nil => intro hb; cases hb
  | keep c h2 ih =>
    intro hb
    rw [hasBOcc_cons] at hb
    rcases Bool.or_eq_true_iff.mp hb with hb | hb
    · obtain ⟨hc, hm⟩ := Bool.and_eq_true_iff.mp hb
      simp only [matchAt] at hm
      obtain ⟨hqp, hba⟩ := Bool.and_eq_true_iff.mp hm
      obtain ⟨w, hw⟩ := pfxP hqp
      rw [← hw] at h2 hba
      obtain ⟨t2, ht2, h3⟩ := relStripLeft q hq h2
      simp only [bAfter, List.drop_left] at hba
      subst ht2
      rw [hasBOcc_cons]
      refine Bool.or_eq_true_iff.mpr (Or.inl ?_)
      refine Bool.and_eq_true_iff.mpr ⟨hc, ?_⟩
      simp only [matchAt]
      refine Bool.and_eq_true_iff.mpr ⟨pfx_self_append q t2, ?_⟩
      simp only [bAfter, List.drop_left]
      cases w with
      | nil =>
        rw [rel_nil_left h3]
      | cons d w2 =>
        rcases rel_cons_inv h3 with ⟨t3, ht3, _⟩ | ⟨hd, nm, s4, t4, _, _, ht4, _⟩
        · rw [ht3]
          exact hba
        · rw [ht4]
          rw [show ∀ (nm2 tt : List Char), (marker ++ nm2) ++ tt
              = '@' :: ((markerTail ++ nm2) ++ tt) from fun nm2 tt => rfl]
          exact (by decide : (!wordChar '@') = true)
    · exact hasBOcc_cons_of c (ih hb)
  | sub hn h2 ih =>
    intro hb
    rename_i name2 s0 t0
    rw [hasBOcc_cons] at hb
    rcases Bool.or_eq_true_iff.mp hb with hb | hb
    · obtain ⟨hc, hm⟩ := Bool.and_eq_true_iff.mp hb
      simp only [matchAt] at hm
      obtain ⟨hqp, hba⟩ := Bool.and_eq_true_iff.mp hm
      exfalso
      rcases Nat.le_total q.length name2.length with hle | hge
      · have hqn := pfx_of_le hqp hle
        obtain ⟨d, w, hdw, hwd⟩ := (hpair name2 hn).2 hqn
        have hdrop : (name2 ++ s0).drop q.length = (name2.drop q.length) ++ s0 :=
          List.drop_append_of_le_length hle
        simp only [bAfter, hdrop, hdw, List.cons_append] at hba
        rw [hwd] at hba
        cases hba
      · have h5 := (hpair name2 hn).1
        rw [pfx_of_ge hqp hge] at h5
        cases h5
    · rw [hasBOcc_skip name2 (fun d hd => (hmk name2 hn d hd).2)] at hb
      have h4 := ih hb
      rw [List.append_assoc]
      exact hasBOcc_append_left marker (hasBOcc_append_left name2 h4)

/-- If the line has a word-boundary occurrence of `%name`, the substitution
pass for `name` inserts a marker. -/
theorem contains_marker_subTok {name : List Char} :
    ∀ {t : List Char}, hasBOcc name t = true → containsTok marker (subTok name t) = true := by
  intro t
  induction t with
  | nil => intro hb; cases hb
  | cons c rest ih =>
    intro hb
    rw [subTok_cons]
    cases hcond : (c == '%' && matchAt name rest) with
    | true =>
      simp only [if_true]
      have hp : marker.isPrefixOf ((marker ++ name) ++ subTok name (rest.drop name.length))
          = true := by
        rw [List.append_assoc]
        exact pfx_self_append marker _
      exact contains_of_pfx hp
    | false =>
      simp only [Bool.false_eq_true, if_false]
      rw [hasBOcc_cons, hcond, Bool.false_or] at hb
      exact contains_cons c (ih hb)

theorem replaceAll_skip {p0 : Char} {pr repl : List Char} :
    ∀ (u : List Char), (∀ c ∈ u, c ≠ p0) → ∀ (t : List Char),
    replaceAll p0 pr repl (u ++ t) = u ++ replaceAll p0 pr repl t := by
  intro u
  induction u with
  | nil => intro _ t; rfl
  | cons c u2 ih =>
    intro hu t
    have hc : (p0 == c) = false := by
      cases hpe : p0 == c with
      | true => exact absurd (beq_iff_eq.mp hpe).symm (hu c (by simp))
      | false => rfl
    rw [List.cons_append, replaceAll_cons, pfx_cons_cons, hc, Bool.false_and]
    simp only [Bool.false_eq_true, if_false]
    rw [ih (fun d hd => hu d (by simp [hd])) t, List.cons_append]

/-- The heart of the round-trip arguments: replacing every marker occurrence
by `'%'` in a transformed line recovers the original line, provided the
original line did not already contain the marker text. -/
theorem rel_replaceAll_marker {N : List (List Char)}
    (hmk : ∀ n ∈ N, ∀ c ∈ n, c ≠ '@' ∧ c ≠ '%') :
    ∀ {s t : List Char}, Rel N s t → containsTok marker s = false →
    replaceAll '@' markerTail ['%'] t = s := by
  intro s t h
  induction h with
  | nil => intro _; rfl
  | keep c h2 ih =>
    intro hm
    rename_i s0 t0
    have hnp : ('@' :: markerTail).isPrefixOf (c :: t0) = false := by
      cases hp : ('@' :: markerTail).isPrefixOf (c :: t0) with
      | false => rfl
      | true =>
        rw [pfx_cons_cons] at hp
        obtain ⟨hat, hmt⟩ := Bool.and_eq_true_iff.mp hp
        obtain ⟨w, hw⟩ := pfxP hmt
        rw [← hw] at h2
        obtain ⟨s2, hs2, _⟩ := relStripRight markerTail markerTail_no_at h2
        exfalso
        rw [hs2] at hm
        have hcm : containsTok marker (c :: (markerTail ++ s2)) = true := by
          refine contains_of_pfx ?_
          rw [show marker = '@' :: markerTail from rfl, pfx_cons_cons, hat, Bool.true_and]
          exact pfx_self_append markerTail s2
        rw [hcm] at hm
        cases hm
    rw [replaceAll_cons, hnp]
    simp only [Bool.false_eq_true, if_false]
    have hm0 : containsTok marker s0 = false := by
      rw [containsTok_cons] at hm
      exact (Bool.or_eq_false_iff.mp hm).2
    rw [ih hm0]
  | sub hn h2 ih =>
    intro hm
    rename_i name2 s0 t0
    rw [show (marker ++ name2) ++ t0 = '@' :: ((markerTail ++ name2) ++ t0) from rfl,
      replaceAll_cons]
    have hpos : ('@' :: markerTail).isPrefixOf ('@' :: ((markerTail ++ name2) ++ t0))
        = true := by
      rw [pfx_cons_cons]
      refine Bool.and_eq_true_iff.mpr ⟨beq_self_eq_true '@', ?_⟩
      rw [List.append_assoc]
      exact pfx_self_append markerTail (name2 ++ t0)
    rw [hpos]
    simp only [if_true]
    have hdrop : ((markerTail ++ name2) ++ t0).drop markerTail.length = name2 ++ t0 := by
      rw [List.append_assoc, List.drop_left]
    rw [hdrop]
    have hm0 : containsTok marker s0 = false := by
      cases hms : containsTok marker s0 with
      | false => rfl
      | true =>
        have h5 := contains_append_left ('%' :: name2) hms
        rw [List.cons_append] at h5
        rw [h5] at hm
        cases hm
    rw [replaceAll_skip name2 (fun d hd => (hmk name2 hn d hd).1) t0, ih hm0]
    rfl

/-- Deleting every `';'` (Python `line.replace(";", "")`) is a filter. -/
theorem replaceAll_semi_filter :
    ∀ s : List Char, replaceAll ';' [] [] s = s.filter (fun c => !(c == ';')) := by
  intro s
  induction s with
  | nil => rfl
  | cons c rest ih =>
    rw [replaceAll_cons, pfx_cons_cons, pfx_nil_left, Bool.and_true]
    cases hc : (';' == c) with
    | true =>
      simp only [if_true, List.nil_append, List.length_nil, List.drop_zero]
      rw [ih]
      have hc2 : (c == ';') = true := by
        rw [beq_iff_eq.mp hc]
        exact beq_self_eq_true c
      rw [List.filter_cons, hc2]
      rfl
    | false =>
      simp only [Bool.false_eq_true, if_false]
      rw [ih]
      have hc2 : (c == ';') = false := by
        cases hce : c == ';' with
        | false => rfl
        | true =>
          rw [beq_iff_eq.mp hce] at hc
          rw [beq_self_eq_true ';'] at hc
          cases hc
      rw [List.filter_cons, hc2]
      rfl

/-- Filtering the `';'` out of a line with no `';'` leaves it unchanged. -/
theorem filter_semi_id {s : List Char} (h : ∀ c ∈ s, c ≠ ';') :
    s.filter (fun c => !(c == ';')) = s := by
  refine List.filter_eq_self.mpr ?_
  intro a ha
  cases hae : a == ';' with
  | false => rfl
  | true => exact absurd (beq_iff_eq.mp hae) (h a ha)

/-- Filtering the `';'` out of a replicated `';'` block gives the empty list. -/
theorem filter_semi_rep (k : Nat) :
    (List.replicate k ';').filter (fun c => !(c == ';')) = [] := by
  induction k with
  | zero => rfl
  | succ k ih =>
    rw [List.replicate_succ, List.filter_cons]
    have : ((';' : Char) == ';') = true := beq_self_eq_true ';'
    rw [this]
    exact ih

/-! ## Decidable facts about the token catalogs -/

theorem bndOK_spec {q n : List Char} (h : bndOK q n = true) :
    n.isPrefixOf q = false ∧
      (q.isPrefixOf n = true →
        ∃ d w, n.drop q.length = d :: w ∧ wordChar d = true) := by
  unfold bndOK at h
  obtain ⟨h1, h2⟩ := Bool.and_eq_true_iff.mp h
  constructor
  · cases hn : n.isPrefixOf q with
    | false => rfl
    | true => rw [hn] at h1; cases h1
  · intro hqn
    rw [hqn] at h2
    simp only [Bool.not_true, Bool.false_or] at h2
    cases hd : n.drop q.length with
    | nil => rw [hd] at h2; cases h2
    | cons d w =>
      rw [hd] at h2
      exact ⟨d, w, rfl, h2⟩

theorem special_shape : ∀ tok ∈ specialFilterList, tok = '%' :: tok.drop 1 := by decide

theorem special_no_semi : ∀ tok ∈ specialFilterList, (';' : Char) ∉ tok := by decide

theorem special_names_allNames : ∀ tok ∈ specialFilterList, tok.drop 1 ∈ allNames := by decide

theorem filter_names_allNames : ∀ tok ∈ filterList, tok.drop 1 ∈ allNames := by decide

theorem special_name_chars :
    ∀ tok ∈ specialFilterList, ∀ c ∈ tok.drop 1, c ≠ '%' ∧ c ≠ '@' := by decide

theorem filter_name_chars :
    ∀ tok ∈ filterList, ∀ c ∈ tok.drop 1, c ≠ '%' ∧ c ≠ '@' := by decide

theorem special_nodup : specialFilterList.Nodup := by decide

theorem special_bnd_filter :
    ∀ q ∈ specialFilterList, ∀ tok ∈ filterList,
    bndOK (q.drop 1) (tok.drop 1) = true := by decide

theorem special_bnd_special :
    ∀ q ∈ specialFilterList, ∀ tok ∈ specialFilterList, q ≠ tok →
    bndOK (q.drop 1) (tok.drop 1) = true := by decide

theorem special_pfx_distinct :
    ∀ q ∈ specialFilterList, ∀ tok ∈ specialFilterList, q ≠ tok →
    (q.drop 1).isPrefixOf (tok.drop 1) = false := by decide

theorem names_no_semi_nl :
    ∀ tok ∈ filterList ++ specialFilterList,
    (';' : Char) ∉ tok.drop 1 ∧ ('\n' : Char) ∉ tok.drop 1 := by decide

theorem semi_not_in_marker : (';' : Char) ∉ ('@' :: markerTail) := by decide

/-! ## Single-substitution step lemmas -/

/-- Single-name specialisation of `relSubTok`. -/
theorem relSubTok_single {name : List Char}
    (hname : ∀ c ∈ name, c ≠ '@' ∧ c ≠ '%') (s : List Char) :
    Rel [name] s (subTok name s) :=
  relSubTok (by simp)
    (by
      intro n hn
      rw [List.mem_singleton.mp hn]
      exact hname)
    (relRefl [name] s)

/-- A substitution step for a prefix-compatible other name preserves a
word-boundary occurrence of `%q`. -/
theorem hasBOcc_subTok_step {q name s : List Char}
    (hq : ∀ c ∈ q, c ≠ '%')
    (hname : ∀ c ∈ name, c ≠ '@' ∧ c ≠ '%')
    (hbnd : bndOK q name = true)
    (hb : hasBOcc q s = true) : hasBOcc q (subTok name s) = true := by
  refine rel_hasBOcc_preserve hq
    (by
      intro n hn
      rw [List.mem_singleton.mp hn]
      exact hname)
    (by
      intro n hn
      rw [List.mem_singleton.mp hn]
      exact bndOK_spec hbnd)
    (relSubTok_single hname s) hb

/-- A substitution step for a prefix-incompatible other name does not change
whether the directive text `%q` occurs in the line. -/
theorem contains_subTok_step {q name s : List Char}
    (hq : ∀ c ∈ q, c ≠ '%' ∧ c ≠ '@')
    (hname : ∀ c ∈ name, c ≠ '@' ∧ c ≠ '%')
    (hp1 : q.isPrefixOf name = false) (hp2 : name.isPrefixOf q = false) :
    containsTok ('%' :: q) (subTok name s) = containsTok ('%' :: q) s := by
  have hsingle : ∀ n ∈ [name], ∀ c ∈ n, c ≠ '@' ∧ c ≠ '%' := by
    intro n hn
    rw [List.mem_singleton.mp hn]
    exact hname
  cases hcs : containsTok ('%' :: q) s with
  | true =>
    exact rel_contains_preserve (fun c hc => (hq c hc).1) hsingle
      (by
        intro n hn
        rw [List.mem_singleton.mp hn]
        exact ⟨hp1, hp2⟩)
      (relSubTok_single hname s) hcs
  | false =>
    cases hct : containsTok ('%' :: q) (subTok name s) with
    | false => rfl
    | true =>
      have := rel_contains_reflect (fun c hc => (hq c hc).2) hsingle
        (relSubTok_single hname s) hct
      rw [this] at hcs
      cases hcs

/-- A substitution step preserves the presence of the marker. -/
theorem marker_subTok_step {name s : List Char}
    (hname : ∀ c ∈ name, c ≠ '@' ∧ c ≠ '%')
    (h : containsTok marker s = true) : containsTok marker (subTok name s) = true :=
  rel_contains_marker_mono markerTail_no_pct (relSubTok_single hname s) h

/-! ## Fold lemmas for the two loops of the forward transform -/

theorem special_name_chars2 :
    ∀ tok ∈ specialFilterList, ∀ c ∈ tok.drop 1, c ≠ '@' ∧ c ≠ '%' := by decide

theorem filter_name_chars2 :
    ∀ tok ∈ filterList, ∀ c ∈ tok.drop 1, c ≠ '@' ∧ c ≠ '%' := by decide

theorem applyFilter_eq (line : List Char) :
    applyFilter line = filterList.foldl filterStep line := rfl

theorem applySpecial_eq (l : List Char) :
    applySpecial l = specialFilterList.foldl specialStep l := rfl

/-- Appending a `';'` block does not change whether a terminated token text
occurs in a line. -/
theorem contains_semis_special {tok : List Char} (htok : tok ∈ specialFilterList)
    (k : Nat) (u : List Char) :
    containsTok tok (u ++ List.replicate k ';') = containsTok tok u := by
  have hshape := special_shape tok htok
  rw [hshape]
  refine contains_append_rep ?_ k u
  rw [← hshape]
  exact special_no_semi tok htok

/-- A substitution pass commutes with a trailing `';'` block. -/
theorem subTok_semis_name {tok : List Char} (htok : tok ∈ filterList ++ specialFilterList)
    (k : Nat) (u : List Char) :
    subTok (tok.drop 1) (u ++ List.replicate k ';')
      = subTok (tok.drop 1) u ++ List.replicate k ';' :=
  subTok_append_rep ';' (names_no_semi_nl tok htok).1 (by decide) (by decide) k u

/-- A substitution pass commutes with a trailing newline. -/
theorem subTok_nl_name {tok : List Char} (htok : tok ∈ filterList ++ specialFilterList)
    (u : List Char) :
    subTok (tok.drop 1) (u ++ ['\n']) = subTok (tok.drop 1) u ++ ['\n'] :=
  subTok_snoc '\n' (names_no_semi_nl tok htok).2 (by decide) (by decide) u.length u le_rfl

/-- Invariants of the non-terminated-token loop: the result stays `Rel`-related
to the original line, keeps every word-boundary occurrence of a terminated
token, and keeps a trailing newline. -/
theorem foldFilter_main :
    ∀ (toks : List (List Char)), List.Sublist toks filterList →
    ∀ (s : List Char),
    (∀ u, Rel allNames u s → Rel allNames u (toks.foldl filterStep s))
    ∧ (∀ q ∈ specialFilterList, hasBOcc (q.drop 1) s = true →
        hasBOcc (q.drop 1) (toks.foldl filterStep s) = true)
    ∧ (∀ v, s = v ++ ['\n'] → ∃ v2, toks.foldl filterStep s = v2 ++ ['\n']) := by
  intro toks
  induction toks with
  | nil =>
    intro _ s
    exact ⟨fun u h => h, fun q _ hb => hb, fun v hv => ⟨v, hv⟩⟩
  | cons tok rest ih =>
    intro hsub s
    have htok : tok ∈ filterList := hsub.subset (List.mem_cons_self tok rest)
    have hrest := (List.sublist_cons_self tok rest).trans hsub
    rw [List.foldl_cons]
    cases hc : containsTok tok s with
    | false =>
      have hs : filterStep s tok = s := by simp [filterStep, hc]
      rw [hs]
      exact ih hrest s
    | true =>
      have hs : filterStep s tok = subTok (tok.drop 1) s := by simp [filterStep, hc]
      rw [hs]
      obtain ⟨ih1, ih2, ih3⟩ := ih hrest (subTok (tok.drop 1) s)
      refine ⟨?_, ?_, ?_⟩
      · intro u hu
        exact ih1 u (relSubTok (filter_names_allNames tok htok) allNames_chars hu)
      · intro q hqmem hb
        refine ih2 q hqmem ?_
        exact hasBOcc_subTok_step
          (fun c hc2 => (special_name_chars q hqmem c hc2).1)
          (filter_name_chars2 tok htok)
          (special_bnd_filter q hqmem tok htok) hb
      · intro v hv
        subst hv
        exact ih3 (subTok (tok.drop 1) v)
          (subTok_nl_name (List.mem_append_left _ htok) v)

theorem applyFilter_rel (line : List Char) : Rel allNames line (applyFilter line) := by
  rw [applyFilter_eq]
  exact (foldFilter_main filterList (List.Sublist.refl _) line).1 line (relRefl _ line)

theorem applyFilter_hasBOcc {line q : List Char} (hq : q ∈ specialFilterList)
    (hb : hasBOcc (q.drop 1) line = true) :
    hasBOcc (q.drop 1) (applyFilter line) = true := by
  rw [applyFilter_eq]
  exact (foldFilter_main filterList (List.Sublist.refl _) line).2.1 q hq hb

theorem applyFilter_nl {line v : List Char} (hv : line = v ++ ['\n']) :
    ∃ v2, applyFilter line = v2 ++ ['\n'] := by
  rw [applyFilter_eq]
  exact (foldFilter_main filterList (List.Sublist.refl _) line).2.2 v hv

/-- Invariants of the terminated-token loop, for the round-trip argument: the
state is always a core followed by a block of appended terminators, the core
stays `Rel`-related to the original, marker presence in the core is monotone,
and a word-boundary occurrence of a remaining token forces a marker into the
final core. -/
theorem foldSpecial_main :
    ∀ (toks : List (List Char)), List.Sublist toks specialFilterList →
    ∀ (core : List Char) (k : Nat),
    ∃ core2 k2,
      toks.foldl specialStep (core ++ List.replicate k ';') = core2 ++ List.replicate k2 ';'
      ∧ (∀ u, Rel allNames u core → Rel allNames u core2)
      ∧ (containsTok marker core = true → containsTok marker core2 = true)
      ∧ (∀ tok ∈ toks, hasBOcc (tok.drop 1) core = true →
          containsTok marker core2 = true) := by
  intro toks
  induction toks with
  | nil =>
    intro _ core k
    exact ⟨core, k, rfl, fun u h => h, fun h => h, by simp⟩
  | cons tok rest ih =>
    intro hsub core k
    have htok : tok ∈ specialFilterList := hsub.subset (List.mem_cons_self tok rest)
    have hrest := (List.sublist_cons_self tok rest).trans hsub
    have hnodup : (tok :: rest).Nodup := special_nodup.sublist hsub
    have htokrest : tok ∉ rest := (List.nodup_cons.mp hnodup).1
    rw [List.foldl_cons]
    have hcond := contains_semis_special htok k core
    cases hc : containsTok tok core with
    | false =>
      have hs : specialStep (core ++ List.replicate k ';') tok
          = core ++ List.replicate k ';' := by
        simp [specialStep, hcond, hc]
      rw [hs]
      obtain ⟨core2, k2, heq, h1, h2, h3⟩ := ih hrest core k
      refine ⟨core2, k2, heq, h1, h2, ?_⟩
      intro tok2 htok2 hb
      rcases List.mem_cons.mp htok2 with rfl | htok2
      · exfalso
        have hco : containsTok tok2 core = true := by
          rw [special_shape tok2 htok]
          exact contains_of_hasBOcc hb
        rw [hco] at hc
        cases hc
      · exact h3 tok2 htok2 hb
    | true =>
      have hs : specialStep (core ++ List.replicate k ';') tok
          = subTok (tok.drop 1) core ++ List.replicate (k+1) ';' := by
        unfold specialStep
        rw [hcond, hc]
        simp only [if_true]
        rw [subTok_semis_name (List.mem_append_right _ htok) k core,
          List.append_assoc, ← List.replicate_succ']
      rw [hs]
      obtain ⟨core2, k2, heq, h1, h2, h3⟩ := ih hrest (subTok (tok.drop 1) core) (k+1)
      refine ⟨core2, k2, heq, ?_, ?_, ?_⟩
      · intro u hu
        exact h1 u (relSubTok (special_names_allNames tok htok) allNames_chars hu)
      · intro hm
        exact h2 (marker_subTok_step (special_name_chars2 tok htok) hm)
      · intro tok2 htok2 hb
        rcases List.mem_cons.mp htok2 with rfl | htok2
        · exact h2 (contains_marker_subTok hb)
        · refine h3 tok2 htok2 ?_
          exact hasBOcc_subTok_step
            (fun c hc2 => (special_name_chars tok2 (hrest.subset htok2) c hc2).1)
            (special_name_chars2 tok htok)
            (special_bnd_special tok2 (hrest.subset htok2) tok htok
              (fun he => htokrest (he ▸ htok2)))
            hb

/-- Invariants of the terminated-token loop, for the terminator count: with
all containment tests frozen at the post-filter line, the loop computes the
reference core and appends exactly one `';'` per token test that fires, after
any trailing newline of the core. -/
theorem foldSpecialCount (l1ref : List Char) :
    ∀ (toks : List (List Char)), List.Sublist toks specialFilterList →
    ∀ (core : List Char) (k : Nat),
    (∀ tok ∈ toks, containsTok tok core = containsTok tok l1ref) →
    toks.foldl specialStep (core ++ List.replicate k ';')
      = (toks.foldl (fun l tok => if containsTok tok l1ref then subTok (tok.drop 1) l else l)
          core)
        ++ List.replicate (k + (toks.filter (fun tok => containsTok tok l1ref)).length) ';'
    ∧ (∀ v, core = v ++ ['\n'] →
        ∃ v2, toks.foldl
          (fun l tok => if containsTok tok l1ref then subTok (tok.drop 1) l else l) core
          = v2 ++ ['\n']) := by
  intro toks
  induction toks with
  | nil =>
    intro _ core k _
    exact ⟨by simp, fun v hv => ⟨v, hv⟩⟩
  | cons tok rest ih =>
    intro hsub core k hcont
    have htok : tok ∈ specialFilterList := hsub.subset (List.mem_cons_self tok rest)
    have hrest := (List.sublist_cons_self tok rest).trans hsub
    have hnodup : (tok :: rest).Nodup := special_nodup.sublist hsub
    have htokrest : tok ∉ rest := (List.nodup_cons.mp hnodup).1
    rw [List.foldl_cons, List.foldl_cons]
    have hcond := contains_semis_special htok k core
    have hthis : containsTok tok core = containsTok tok l1ref := hcont tok (by simp)
    cases hc : containsTok tok l1ref with
    | false =>
      have hs1 : specialStep (core ++ List.replicate k ';') tok
          = core ++ List.replicate k ';' := by
        simp [specialStep, hcond, hthis, hc]
      have hflt : ((tok :: rest).filter (fun t => containsTok t l1ref)).length
          = (rest.filter (fun t => containsTok t l1ref)).length := by
        rw [List.filter_cons, hc]
        rfl
      rw [hs1, hflt, if_neg Bool.false_ne_true]
      exact ih hrest core k (fun t ht => hcont t (by simp [ht]))
    | true =>
      have hs1 : specialStep (core ++ List.replicate k ';') tok
          = subTok (tok.drop 1) core ++ List.replicate (k+1) ';' := by
        unfold specialStep
        rw [hcond, hthis, hc]
        simp only [if_true]
        rw [subTok_semis_name (List.mem_append_right _ htok) k core,
          List.append_assoc, ← List.replicate_succ']
      have hflt : k + ((tok :: rest).filter (fun t => containsTok t l1ref)).length
          = (k + 1) + (rest.filter (fun t => containsTok t l1ref)).length := by
        rw [List.filter_cons, hc]
        simp only [if_true, List.length_cons]
        omega
      rw [hs1, hflt, if_pos rfl]
      have hcont2 : ∀ t ∈ rest,
          containsTok t (subTok (tok.drop 1) core) = containsTok t l1ref := by
        intro t ht
        have htmem : t ∈ specialFilterList := hrest.subset ht
        have hne : t ≠ tok := fun he => htokrest (he ▸ ht)
        rw [special_shape t htmem]
        rw [contains_subTok_step
          (fun c hc2 => special_name_chars t htmem c hc2)
          (special_name_chars2 tok htok)
          (special_pfx_distinct t htmem tok htok hne)
          (special_pfx_distinct tok htok t htmem (fun he => hne he.symm))]
        rw [← special_shape t htmem]
        exact hcont t (by simp [ht])
      obtain ⟨hmain, hnl⟩ := ih hrest (subTok (tok.drop 1) core) (k+1) hcont2
      refine ⟨hmain, ?_⟩
      intro v hv
      refine hnl (subTok (tok.drop 1) v) ?_
      rw [hv]
      exact subTok_nl_name (List.mem_append_right _ htok) v

/-! ## Claims -/

/-- C3 (counterexample): the spec's scenario for `%hook -(void)foo;` asserts
that the reverse transform reproduces the original line exactly; in fact the
reverse transform deletes *every* `';'` of the line, so the user-written
terminator after `foo` is lost as well. -/
theorem c3_scenario_counterexample :
    norm_to_logos_line (logos_to_norm_line ("%hook -(void)foo;".toList))
      ≠ "%hook -(void)foo;".toList := by decide

/-- C3 (amended): the forward transform of `%hook -(void)foo;` is
`@logosformathook -(void)foo;;` (marker plus appended terminator), as the
claim states; the reverse transform of that result, however, is
`%hook -(void)foo` — the marker and both terminators are removed, i.e. the
line's own `';'` is lost (the documented reverse-approximation limitation). -/
theorem c3_scenario_amended :
    logos_to_norm_line ("%hook -(void)foo;".toList)
        = "@logosformathook -(void)foo;;".toList ∧
      norm_to_logos_line ("@logosformathook -(void)foo;;".toList)
        = "%hook -(void)foo".toList := by decide

/-- C8: the line `%log(@"x");` contains only the non-terminated directive
`%log`; the forward transform yields `@logosformatlog(@"x");` with no
appended terminator, and the reverse transform restores the original line
exactly. -/
theorem c8_scenario_log :
    logos_to_norm_line ("%log(@\"x\");".toList) = "@logosformatlog(@\"x\");".toList ∧
      norm_to_logos_line ("@logosformatlog(@\"x\");".toList) = "%log(@\"x\");".toList ∧
      norm_to_logos_line (logos_to_norm_line ("%log(@\"x\");".toList))
        = "%log(@\"x\");".toList := by decide

/-- C5 (counterexample): `%hooked` has no word-boundary occurrence of any
catalog directive, yet the forward transform changes it to `%hooked;` —
the substring test `"%hook" in line` fires even though the regex
`%hook\b` matches nothing, so a stray `';'` is appended. -/
theorem c5_counterexample :
    (∀ tok ∈ filterList ++ specialFilterList,
        hasBOcc (tok.drop 1) ("%hooked".toList) = false) ∧
      logos_to_norm_line ("%hooked".toList) ≠ "%hooked".toList := by decide

/-- C5 (amended): a line that contains none of the catalog tokens even as a
substring, and does not contain the marker text `@logosformat`, is left
exactly unchanged by both the forward and the reverse transform. -/
theorem c5_passthrough_amended (line : List Char)
    (h1 : ∀ tok ∈ filterList ++ specialFilterList, containsTok tok line = false)
    (h2 : containsTok marker line = false) :
    logos_to_norm_line line = line ∧ norm_to_logos_line line = line := by
  have hf : applyFilter line = line :=
    foldl_subTok_id _ _ fun t ht => h1 t (List.mem_append_left _ ht)
  have hs : applySpecial line = line :=
    foldl_special_id _ _ fun t ht => h1 t (List.mem_append_right _ ht)
  constructor
  · rw [logos_to_norm_line, hf, applySpecial] at *
    exact hs
  · rw [norm_to_logos_line, h2]
    simp

/-- C5 (witness for the amended theorem): the plain line `int x = 3` is
unchanged by both transforms. -/
theorem c5_passthrough_amended_witness :
    logos_to_norm_line ("int x = 3".toList) = "int x = 3".toList ∧
      norm_to_logos_line ("int x = 3".toList) = "int x = 3".toList :=
  c5_passthrough_amended ("int x = 3".toList) (by decide) (by decide)

/-- C2: if the formatter invocation fails — `CalledProcessError` (non-zero
exit) or an unexpected exception while starting it — then the run leaves every
original file's content unchanged: originals are only written in the in-place
commit loop, which runs after a successful formatter invocation. -/
theorem c2_formatter_failure_preserves_files (version in_place : Bool) (args : List String)
    (st : RunState) (fmt : FmtOutcome)
    (h : (∃ rc, fmt = .fail rc) ∨ fmt = .exn) :
    ((real_main version in_place args st fmt).2).files = st.files := by
  unfold real_main
  split
  · rfl
  · rcases h with ⟨rc, rfl⟩ | rfl <;> cases hc : classify st.files args <;> simp [hc]

/-- C2 (witness): a concrete failing run leaves the file system untouched. -/
theorem c2_formatter_failure_preserves_files_witness :
    ((real_main false true ["a.x"] sampleState (.fail 2)).2).files = sampleState.files :=
  c2_formatter_failure_preserves_files false true ["a.x"] sampleState (.fail 2)
    (Or.inl ⟨2, rfl⟩)

/-- C4 (counterexample): with a single unreadable `.x` input the run raises
`PermissionError`, as the claim says — but the temporary directory has
*already been created* at that point: the `SaveableTempDir` context is entered
before the argument-classification loop that performs the access checks, so
“the run never creates the temporary directory when a recognized input fails
the check” is false. -/
theorem c4_counterexample :
    permBad (badState.files "a.x") ∧
      (real_main false false ["a.x"] badState FmtOutcome.exn).1
        = .error (.perm "Cannot read Logos file a.x") ∧
      (real_main false false ["a.x"] badState FmtOutcome.exn).2.tmpdirCreated = true := by
  refine ⟨⟨rfl, by decide, Or.inl rfl⟩, ?_, rfl⟩
  have h : classify badState.files ["a.x"]
      = .error (.perm "Cannot read Logos file a.x") := by
    have : get_logos_path badState.files "a.x"
        = .error (.perm ("Cannot read Logos file " ++ "a.x")) := by
      simp [get_logos_path, badState, badInfo, logos_extensions]
    simp [classify, this]
  simp [real_main, h]

/-- C4 (amended): a recognized input file that fails the readability or
writability check makes the run raise `PermissionError` during argument
classification — before the formatter is consulted (the result does not depend
on the formatter outcome) and with every original file unchanged — but the
temporary directory has already been created when the check runs. -/
theorem c4_perm_error_amended (in_place : Bool) (args : List String) (st : RunState)
    (h : ∃ a ∈ args, permBad (st.files a)) :
    ∃ m, ∀ fmt, real_main false in_place args st fmt =
      (Except.error (Err.perm m), { st with tmpdirCreated := true }) := by
  obtain ⟨m, hm⟩ := classify_error_of_bad st.files args h
  exact ⟨m, fun fmt => by simp [real_main, hm]⟩

/-- C4 (witness for the amended theorem): concrete unreadable input. -/
theorem c4_perm_error_amended_witness :
    ∃ m, ∀ fmt, real_main false false ["a.x"] badState fmt =
      (Except.error (Err.perm m), { badState with tmpdirCreated := true }) :=
  c4_perm_error_amended false ["a.x"] badState
    ⟨"a.x", by decide, ⟨rfl, by decide, Or.inl rfl⟩⟩

/-- C6: with inputs that pass the permission checks, the exit code is 0 when
the pipeline succeeds, the formatter's own return code when the formatter
exits non-zero, and the fixed generic code 1 on an unexpected invocation
exception; and any exception escaping `real_main` is mapped to exit code 1 by
the top-level handler in `main`. -/
theorem c6_exit_codes (in_place : Bool) (args : List String) (st : RunState)
    (h : ∀ a ∈ args, ¬ permBad (st.files a)) :
    (∀ out ff, (main false in_place args st (.success out ff)).1 = 0) ∧
      (∀ rc, (main false in_place args st (.fail rc)).1 = rc) ∧
      ((main false in_place args st .exn).1 = 1) ∧
      (∀ version fmt e st2, real_main version in_place args st fmt = (.error e, st2) →
        (main version in_place args st fmt).1 = 1) := by
  obtain ⟨rec, hrec⟩ := classify_ok_of_no_bad st.files args h
  refine ⟨?_, ?_, ?_, ?_⟩
  · intro out ff
    cases in_place <;> simp [main, real_main, hrec]
  · intro rc
    simp [main, real_main, hrec]
  · simp [main, real_main, hrec]
  · intro version fmt e st2 hre
    simp [main, hre]

/-- C6 (witness): a concrete failing formatter run exits with its code. -/
theorem c6_exit_codes_witness :
    (main false false [] sampleState (.fail 7)).1 = 7 :=
  (c6_exit_codes false [] sampleState (fun a ha => absurd ha (List.not_mem_nil a))).2.1 7

/-- C9: the extension table is total and functional on the recognized set —
`.x` and `.xi` map to `.m`, `.xm` and `.xmi` map to `.mm`, so there are
exactly two targets — and an argument whose extension is not recognized is
never classified as a source file (`get_logos_path` yields `none`, and hence
it never appears among the recognized files fed to the token transforms). -/
theorem c9_extension_mapping :
    (normalExtension ".x" = some ".m" ∧ normalExtension ".xi" = some ".m" ∧
        normalExtension ".xm" = some ".mm" ∧ normalExtension ".xmi" = some ".mm") ∧
      (∀ e ∈ logos_extensions,
        normalExtension e = some ".m" ∨ normalExtension e = some ".mm") ∧
      (∀ files arg, logos_extensions.contains ((files arg).ext) = false →
        get_logos_path files arg = .ok none) ∧
      (∀ files args rec arg, classify files args = .ok rec → arg ∈ rec →
        logos_extensions.contains ((files arg).ext) = true) := by
  refine ⟨by decide, by decide, ?_, ?_⟩
  · intro files arg h
    have hm : (files arg).ext ∉ logos_extensions := by simpa using h
    simp [get_logos_path, hm]
  · intro files args rec arg h ha
    exact classify_mem_recognized files args rec h arg ha

/-- C9 (witness): a `.cpp` argument is not classified as a Logos file. -/
theorem c9_extension_mapping_witness :
    get_logos_path (fun _ => plainInfo) "x.cpp" = .ok none :=
  c9_extension_mapping.2.2.1 (fun _ => plainInfo) "x.cpp" (by decide)

theorem hasBOcc_of_countBOcc {name : List Char} :
    ∀ {s : List Char}, countBOcc name s ≥ 1 → hasBOcc name s = true := by
  intro s
  induction s with
  | nil => intro h; exact absurd h (by simp [countBOcc])
  | cons c rest ih =>
    intro h
    rw [hasBOcc_cons]
    cases hcond : (c == '%' && matchAt name rest) with
    | true => rw [Bool.true_or]
    | false =>
      rw [Bool.false_or]
      refine ih ?_
      unfold countBOcc at h
      rw [hcond] at h
      simpa using h

theorem exists_pos_of_sum_map (g : List Char → Nat) :
    ∀ (toks : List (List Char)), (toks.map g).sum ≥ 1 → ∃ tok ∈ toks, g tok ≥ 1 := by
  intro toks
  induction toks with
  | nil => intro h; exact absurd h (by simp)
  | cons tok rest ih =>
    intro h
    rw [List.map_cons, List.sum_cons] at h
    by_cases hg : g tok ≥ 1
    · exact ⟨tok, by simp, hg⟩
    · have h2 : (rest.map g).sum ≥ 1 := by omega
      obtain ⟨t, ht, hgt⟩ := ih h2
      exact ⟨t, by simp [ht], hgt⟩

/-- C1 (counterexample): the line `%hookf foo;` contains only the
non-terminated directive `%hookf` (no terminated directive matches at a word
boundary — `%hook` is followed by the word character `f`) and no marker text,
yet the round trip loses the `';'`: on the way back, the restored `%hookf`
text contains `%hook` as a substring, which triggers the
terminator-stripping branch of the reverse transform. -/
theorem c1_counterexample :
    hasBOcc ("hookf".toList) ("%hookf foo;".toList) = true ∧
      (∀ tok ∈ specialFilterList, hasBOcc (tok.drop 1) ("%hookf foo;".toList) = false) ∧
      containsTok marker ("%hookf foo;".toList) = false ∧
      norm_to_logos_line (logos_to_norm_line ("%hookf foo;".toList))
        ≠ "%hookf foo;".toList := by
  decide

/-- C1 (amended): for every line in which no terminated-directive token text
(`%hook`, `%end`, `%new`, `%group`, `%subclass`) occurs even as a substring
and which contains no pre-existing marker text `@logosformat`, the reverse
transform of the forward transform is the original line. -/
theorem c1_roundtrip_nonterminated_amended (line : List Char)
    (hspec : ∀ tok ∈ specialFilterList, containsTok tok line = false)
    (hmark : containsTok marker line = false) :
    norm_to_logos_line (logos_to_norm_line line) = line := by
  have hrel : Rel allNames line (applyFilter line) := applyFilter_rel line
  have hspec1 : ∀ tok ∈ specialFilterList, containsTok tok (applyFilter line) = false := by
    intro tok htok
    cases hct : containsTok tok (applyFilter line) with
    | false => rfl
    | true =>
      exfalso
      rw [special_shape tok htok] at hct
      have h6 := rel_contains_reflect
        (fun c hc => (special_name_chars tok htok c hc).2)
        allNames_chars hrel hct
      rw [← special_shape tok htok] at h6
      have h5 := hspec tok htok
      rw [h6] at h5
      cases h5
  have hsp : applySpecial (applyFilter line) = applyFilter line :=
    foldl_special_id specialFilterList (applyFilter line) hspec1
  show norm_to_logos_line (applySpecial (applyFilter line)) = line
  rw [hsp]
  cases hm1 : containsTok marker (applyFilter line) with
  | false =>
    have heq : line = applyFilter line := rel_eq_of_no_marker hrel hm1
    unfold norm_to_logos_line
    rw [hm1, if_neg Bool.false_ne_true]
    exact heq.symm
  | true =>
    unfold norm_to_logos_line
    rw [hm1, if_pos rfl]
    have hrep : replaceAll '@' markerTail ['%'] (applyFilter line) = line :=
      rel_replaceAll_marker allNames_chars hrel hmark
    rw [hrep]
    show (if (specialFilterList.any fun tok => containsTok tok line) = true then
        replaceAll ';' [] [] line else line) = line
    have hany : (specialFilterList.any fun tok => containsTok tok line) = false := by
      cases hA : specialFilterList.any (fun tok => containsTok tok line) with
      | false => rfl
      | true =>
        obtain ⟨tok, htok, hcT⟩ := List.any_eq_true.mp hA
        rw [hspec tok htok] at hcT
        cases hcT
    rw [hany, if_neg Bool.false_ne_true]

/-- C1 (witness for the amended theorem): `%log(x);` round-trips exactly. -/
theorem c1_roundtrip_nonterminated_amended_witness :
    norm_to_logos_line (logos_to_norm_line ("%log(x);".toList)) = "%log(x);".toList :=
  c1_roundtrip_nonterminated_amended ("%log(x);".toList) (by decide) (by decide)

/-- C7 (counterexample): `@logosformat %hook` has exactly one word-boundary
occurrence of one terminated token and no `';'` at all, but the round trip
yields `% %hook` — the pre-existing marker text is also replaced by `%` on the
way back. -/
theorem c7_counterexample :
    ((specialFilterList.map
        (fun tok => countBOcc (tok.drop 1) ("@logosformat %hook".toList))).sum = 1) ∧
      (∀ c ∈ "@logosformat %hook".toList, c ≠ ';') ∧
      norm_to_logos_line (logos_to_norm_line ("@logosformat %hook".toList))
        ≠ "@logosformat %hook".toList := by
  decide

/-- C7 (amended): for a line containing exactly one word-boundary occurrence
of one terminated-directive token, no other terminator (`';'`) characters, and
no pre-existing marker text `@logosformat`, the reverse transform of the
forward transform reproduces the original line exactly. -/
theorem c7_terminator_roundtrip_amended (line : List Char)
    (hone : (specialFilterList.map (fun tok => countBOcc (tok.drop 1) line)).sum = 1)
    (hsemi : ∀ c ∈ line, c ≠ ';')
    (hmark : containsTok marker line = false) :
    norm_to_logos_line (logos_to_norm_line line) = line := by
  obtain ⟨tokS, htokS, hcount⟩ :=
    exists_pos_of_sum_map (fun tok => countBOcc (tok.drop 1) line) specialFilterList
      (by omega)
  have hboccS : hasBOcc (tokS.drop 1) line = true := hasBOcc_of_countBOcc hcount
  have hrel : Rel allNames line (applyFilter line) := applyFilter_rel line
  have hboccl1 : hasBOcc (tokS.drop 1) (applyFilter line) = true :=
    applyFilter_hasBOcc htokS hboccS
  obtain ⟨core2, k2, heqS, hrelS, _, hlastS⟩ :=
    foldSpecial_main specialFilterList (List.Sublist.refl _) (applyFilter line) 0
  rw [List.replicate_zero, List.append_nil] at heqS
  have heqS2 : applySpecial (applyFilter line) = core2 ++ List.replicate k2 ';' := heqS
  have hrel2 : Rel allNames line core2 := hrelS line hrel
  have hmark2 : containsTok marker core2 = true := hlastS tokS htokS hboccl1
  have hmark3 : containsTok marker (core2 ++ List.replicate k2 ';') = true := by
    have h5 := contains_append_rep semi_not_in_marker k2 core2
    rw [show ('@' :: markerTail : List Char) = marker from rfl] at h5
    rw [h5]
    exact hmark2
  have hrepl : replaceAll '@' markerTail ['%'] (core2 ++ List.replicate k2 ';')
      = line ++ List.replicate k2 ';' := by
    rw [replaceAll_append_rep ';' semi_not_in_marker k2 core2]
    rw [rel_replaceAll_marker allNames_chars hrel2 hmark]
  have hcontS : containsTok tokS (line ++ List.replicate k2 ';') = true := by
    rw [contains_semis_special htokS k2 line, special_shape tokS htokS]
    exact contains_of_hasBOcc hboccS
  have hany : (specialFilterList.any fun tok =>
      containsTok tok (line ++ List.replicate k2 ';')) = true :=
    List.any_eq_true.mpr ⟨tokS, htokS, hcontS⟩
  have hstrip : replaceAll ';' [] [] (line ++ List.replicate k2 ';') = line := by
    rw [replaceAll_semi_filter, List.filter_append, filter_semi_id hsemi, filter_semi_rep]
    exact List.append_nil line
  show norm_to_logos_line (applySpecial (applyFilter line)) = line
  rw [heqS2]
  unfold norm_to_logos_line
  rw [hmark3, if_pos rfl, hrepl]
  show (if (specialFilterList.any fun tok =>
      containsTok tok (line ++ List.replicate k2 ';')) = true then
    replaceAll ';' [] [] (line ++ List.replicate k2 ';')
    else line ++ List.replicate k2 ';') = line
  rw [hany, if_pos rfl]
  exact hstrip

/-- C7 (witness for the amended theorem): `%hook X` round-trips exactly. -/
theorem c7_terminator_roundtrip_amended_witness :
    norm_to_logos_line (logos_to_norm_line ("%hook X".toList)) = "%hook X".toList :=
  c7_terminator_roundtrip_amended ("%hook X".toList) (by decide) (by decide) (by decide)

/-- C10 (counterexample): in the input line `%hookf x` + newline, the
terminated token name `%hook` occurs as a substring, yet the forward
transform appends no `';'` at all (the `%hookf` has already been replaced by
its marker when the terminated-token loop runs), so the output does not end
with a terminator after the newline. -/
theorem c10_counterexample :
    containsTok ("%hook".toList) ("%hookf x\n".toList) = true ∧
      "%hookf x\n".toList = "%hookf x".toList ++ ['\n'] ∧
      logos_to_norm_line ("%hookf x\n".toList) = "@logosformathookf x\n".toList ∧
      (logos_to_norm_line ("%hookf x\n".toList)).getLast? ≠ some ';' := by
  decide

/-- C10 (amended): the forward transform of any line equals a core — the
result of the substitution passes, which keeps a trailing newline — followed
by exactly one appended `';'` per distinct terminated token whose text occurs
(as a substring) in the post-filter line, i.e. after the non-terminated-token
replacements; the appended terminators therefore fall after the line's
trailing newline, one per distinct token name regardless of how many times
that name occurs. -/
theorem c10_semicolon_append_amended (line : List Char) :
    logos_to_norm_line line
        = applySpecialCore (applyFilter line)
          ++ List.replicate (specialSemiCount line) ';'
      ∧ (∀ v, line = v ++ ['\n'] →
          ∃ v2, applySpecialCore (applyFilter line) = v2 ++ ['\n']) := by
  obtain ⟨hmain, hnl⟩ := foldSpecialCount (applyFilter line) specialFilterList
    (List.Sublist.refl _) (applyFilter line) 0 (fun tok _ => rfl)
  rw [List.replicate_zero, List.append_nil, Nat.zero_add] at hmain
  constructor
  · show applySpecial (applyFilter line) = _
    exact hmain
  · intro v hv
    obtain ⟨v1, hv1⟩ := applyFilter_nl hv
    exact hnl v1 hv1

/-- C10 (witness for the amended theorem): concrete decomposition for
`%hook X` + newline — the `';'` is appended after the newline. -/
theorem c10_semicolon_append_amended_witness :
    (logos_to_norm_line ("%hook X\n".toList)
        = applySpecialCore (applyFilter ("%hook X\n".toList))
          ++ List.replicate (specialSemiCount ("%hook X\n".toList)) ';')
      ∧ (∃ v2, applySpecialCore (applyFilter ("%hook X\n".toList)) = v2 ++ ['\n']) :=
  ⟨(c10_semicolon_append_amended ("%hook X\n".toList)).1,
    (c10_semicolon_append_amended ("%hook X\n".toList)).2 ("%hook X".toList) (by decide)⟩

end LogosFormat
